import Mathlib

/-!
Verification of the remuxer (remuxer.c): sample interleaving scheduler,
brand selection, track-option parsing and CLI pre-scheduling checks.

The scheduler (remuxer.c lines 424-494) is embedded twice:
* `Remuxer.nstep` keeps the source's nested cursors
  (`input_movie_number`, `current_track_number` of the current input movie,
  `output.current_track_number`) exactly as the C code advances them;
* `Remuxer.fstep` is the same loop over the flattened track list
  (the round robin the nested cursors realise whenever every input movie
  has at least one track); the global invariant and termination proofs
  live on this form.

The C `double` watermark `largest_dts` is modelled by `ℚ` (exact instead of
rounded real arithmetic; the algorithm only uses the total order and `max`).
All machine counters stay far below 2^32 in reachable states, so they are
modelled by `ℕ`.
-/

namespace Remuxer

/-- One input track as the scheduler sees it: the decode timestamps of its
samples (sample numbers are 1-based, `dts.get (i-1)` is sample `i`) and the
media timescale (`in_track->media_param.timescale`). -/
structure Track where
  dts : List ℕ
  timescale : ℕ
deriving DecidableEq, Repr

/-- Mutable per-track scheduler state: `current_sample_number` (1-based) and
`reach_end_of_media_timeline` (remuxer.c lines 39-40). -/
structure TState where
  current_sample_number : ℕ
  reach_end_of_media_timeline : Bool
deriving DecidableEq, Repr

/-- A single transfer event: which flat track index the sample came from,
its (1-based) sample number in that track, and its raw decode timestamp. -/
structure Transfer where
  track : ℕ
  sample : ℕ
  dts : ℕ
deriving DecidableEq, Repr

/-- `(double)dts / timescale`, the timestamp of a sample in seconds
(remuxer.c line 455), in exact arithmetic (`Rat.divInt` so that concrete
runs evaluate by kernel reduction). -/
def secs (d ts : ℕ) : ℚ := Rat.divInt (d : ℤ) (ts : ℤ)

theorem secs_eq_div (d ts : ℕ) : secs d ts = (d : ℚ) / (ts : ℚ) := by
  simp [secs, Rat.divInt_eq_div]

/-- Scheduler state for the flattened round robin: per-track states, the
cursor (0-based flat track index), and the three global scalars of
remuxer.c lines 424-427. -/
structure FState where
  st : List TState
  cursor : ℕ
  largest_dts : ℚ
  num_consecutive_sample_skip : ℕ
  num_active_input_tracks : ℕ
deriving DecidableEq, Repr

/-- Result of one pass through the `while (1)` body: either the loop broke
(`--num_active_input_tracks == 0`, carrying the final state) or it
continues with the next state, having transferred at most one sample. -/
inductive FStep where
  | halt (final : FState)
  | go (next : FState) (ev : Option Transfer)
deriving DecidableEq, Repr

def defaultTrack : Track := ⟨[], 1⟩

def defaultTState : TState := ⟨1, false⟩

/-- Advance the cursor to the next track, wrapping at the end
(remuxer.c lines 481-493, flattened). -/
def fadvance (n : ℕ) (σ : FState) : FState :=
  { σ with cursor := (σ.cursor + 1) % n }

/-- One iteration of the scheduler loop body, remuxer.c lines 430-494,
over the flattened track list `cfg`. -/
def fstep (cfg : List Track) (σ : FState) : FStep :=
  let i := σ.cursor
  let tr := cfg.getD i defaultTrack
  let ts := σ.st.getD i defaultTState
  if ts.reach_end_of_media_timeline then
    -- track already drained: fall through to `Move the next track`
    .go (fadvance cfg.length σ) none
  else if tr.dts.length < ts.current_sample_number then
    -- no sample at current_sample_number: lsmash_get_dts_from_media_timeline
    -- fails, the sample does not exist, mark the end of this media timeline
    let σ1 : FState :=
      { σ with st := σ.st.set i ⟨ts.current_sample_number, true⟩,
               num_active_input_tracks := σ.num_active_input_tracks - 1 }
    if σ.num_active_input_tracks - 1 = 0 then
      .halt σ1        -- end of muxing
    else
      .go (fadvance cfg.length σ1) none
  else
    let d := tr.dts.getD (ts.current_sample_number - 1) 0
    if secs d tr.timescale ≤ σ.largest_dts
        ∨ σ.num_consecutive_sample_skip = σ.num_active_input_tracks then
      -- get and append the sample, it is a good time
      .go (fadvance cfg.length
        { σ with st := σ.st.set i ⟨ts.current_sample_number + 1, false⟩,
                 largest_dts := max σ.largest_dts (secs d tr.timescale),
                 num_consecutive_sample_skip := 0 })
        (some ⟨i, ts.current_sample_number, d⟩)
    else
      -- skip appending the sample
      .go (fadvance cfg.length
        { σ with num_consecutive_sample_skip := σ.num_consecutive_sample_skip + 1 })
        none

/-- Initial scheduler state (remuxer.c lines 414-427): every track at sample
number 1, not at the end of its timeline, cursor on the first track,
watermark 0, no skips, every track active. -/
def initF (cfg : List Track) : FState :=
  { st := cfg.map fun _ => defaultTState
    cursor := 0
    largest_dts := 0
    num_consecutive_sample_skip := 0
    num_active_input_tracks := cfg.length }

/-- Run the scheduler for at most `fuel` iterations, accumulating the
transfer log; `none` when the fuel ran out before the loop broke. -/
def frunAux (cfg : List Track) : ℕ → FState → List Transfer →
    Option (List Transfer × FState)
  | 0, _, _ => none
  | fuel + 1, σ, acc =>
    match fstep cfg σ with
    | .halt final => some (acc, final)
    | .go next ev => frunAux cfg fuel next (acc ++ ev.toList)

def frun (cfg : List Track) (fuel : ℕ) : Option (List Transfer × FState) :=
  frunAux cfg fuel (initF cfg) []

/-! ### Nested embedding

The C loop addresses the current track through three cursors:
`input_movie_number` (1-based over the input movies), the current movie's
`current_track_number` (1-based; every movie starts at 1 and the loop resets
a movie's counter to 1 before leaving it, so a single counter for the
current movie carries the whole state), and `output.current_track_number`
(1-based over all output tracks).  `nstep` reproduces lines 430-494 of
remuxer.c with exactly these cursors and their wrap rules. -/

/-- A transfer event in nested coordinates: 1-based source movie number,
1-based track number within that movie, sample number and raw dts. -/
structure NTransfer where
  movie : ℕ
  track : ℕ
  sample : ℕ
  dts : ℕ
deriving DecidableEq, Repr

/-- Scheduler state with the source's nested cursors. `st` mirrors the
shape of the configuration: one `TState` per input track, movie by movie. -/
structure NState where
  st : List (List TState)
  input_movie_number : ℕ
  current_track_number : ℕ
  output_current_track_number : ℕ
  largest_dts : ℚ
  num_consecutive_sample_skip : ℕ
  num_active_input_tracks : ℕ
deriving DecidableEq, Repr

inductive NStep where
  | halt (final : NState)
  | go (next : NState) (ev : Option NTransfer)
deriving DecidableEq, Repr

/-- `Move the next track` / `Move the next input movie` (remuxer.c lines
481-493): advance the track cursor of the current movie, wrap to the next
movie after the current movie's last track, wrap to the first movie after
the last one, and advance the output track cursor with its own wrap. -/
def nadvance (cfg : List (List Track)) (total : ℕ) (σ : NState) : NState :=
  let movieLen := (cfg.getD (σ.input_movie_number - 1) []).length
  let t1 := σ.current_track_number + 1
  let o1 := σ.output_current_track_number + 1
  let (t2, m1) :=
    if movieLen < t1 then (1, σ.input_movie_number + 1) else (t1, σ.input_movie_number)
  let m2 := if cfg.length < m1 then 1 else m1
  let o2 := if total < o1 then 1 else o1
  { σ with current_track_number := t2, input_movie_number := m2,
           output_current_track_number := o2 }

/-- One iteration of the scheduler loop body (remuxer.c lines 430-494) in
nested coordinates. `cfg` is the list of input movies, each a list of
tracks. -/
def nstep (cfg : List (List Track)) (σ : NState) : NStep :=
  let total := (cfg.map List.length).sum
  let movie := cfg.getD (σ.input_movie_number - 1) []
  let msts := σ.st.getD (σ.input_movie_number - 1) []
  let tr := movie.getD (σ.current_track_number - 1) defaultTrack
  let ts := msts.getD (σ.current_track_number - 1) defaultTState
  if ts.reach_end_of_media_timeline then
    .go (nadvance cfg total σ) none
  else if tr.dts.length < ts.current_sample_number then
    let σ1 : NState :=
      { σ with st := σ.st.set (σ.input_movie_number - 1)
                 (msts.set (σ.current_track_number - 1) ⟨ts.current_sample_number, true⟩),
               num_active_input_tracks := σ.num_active_input_tracks - 1 }
    if σ.num_active_input_tracks - 1 = 0 then
      .halt σ1
    else
      .go (nadvance cfg total σ1) none
  else
    let d := tr.dts.getD (ts.current_sample_number - 1) 0
    if secs d tr.timescale ≤ σ.largest_dts
        ∨ σ.num_consecutive_sample_skip = σ.num_active_input_tracks then
      .go (nadvance cfg total
        { σ with st := σ.st.set (σ.input_movie_number - 1)
                   (msts.set (σ.current_track_number - 1) ⟨ts.current_sample_number + 1, false⟩),
                 largest_dts := max σ.largest_dts (secs d tr.timescale),
                 num_consecutive_sample_skip := 0 })
        (some ⟨σ.input_movie_number, σ.current_track_number, ts.current_sample_number, d⟩)
    else
      .go (nadvance cfg total
        { σ with num_consecutive_sample_skip := σ.num_consecutive_sample_skip + 1 })
        none

/-- Initial nested state: every cursor at 1, every track at sample 1 and not
yet at the end of its timeline, watermark 0, all tracks active. -/
def initN (cfg : List (List Track)) : NState :=
  { st := cfg.map fun m => m.map fun _ => defaultTState
    input_movie_number := 1
    current_track_number := 1
    output_current_track_number := 1
    largest_dts := 0
    num_consecutive_sample_skip := 0
    num_active_input_tracks := (cfg.map List.length).sum }

def nrunAux (cfg : List (List Track)) : ℕ → NState → List NTransfer →
    Option (List NTransfer × NState)
  | 0, _, _ => none
  | fuel + 1, σ, acc =>
    match nstep cfg σ with
    | .halt final => some (acc, final)
    | .go next ev => nrunAux cfg fuel next (acc ++ ev.toList)

def nrun (cfg : List (List Track)) (fuel : ℕ) : Option (List NTransfer × NState) :=
  nrunAux cfg fuel (initN cfg) []

/-- The configuration of the C1 scenario: two sources with one track each,
equal timescales, decode timestamps `[0,1,2]` and `[0,2]`. -/
def cfgC1 : List (List Track) := [[⟨[0, 1, 2], 1⟩], [⟨[0, 2], 1⟩]]

example : (nrun cfgC1 20).map Prod.fst =
    some [⟨1, 1, 1, 0⟩, ⟨2, 1, 1, 0⟩, ⟨1, 1, 2, 1⟩, ⟨2, 1, 2, 2⟩, ⟨1, 1, 3, 2⟩] := by
  decide

/-! ### Track statuses and the skip window

The scheduler invariant bounding `num_consecutive_sample_skip` counts, going
backwards from the cursor through the round-robin order, the tracks whose
next sample is ahead of the watermark, stopping at the first track that
would transfer or exhaust when visited. -/

/-- The classification of a track the loop body branches on. -/
inductive TrackStatus where
  | drained   -- `reach_end_of_media_timeline` already set
  | spent     -- live, but no sample at `current_sample_number`
  | ready     -- live, next sample not ahead of `largest_dts`
  | ahead     -- live, next sample strictly ahead of `largest_dts`
deriving DecidableEq, Repr

/-- Status of flat track `i` in state `σ`; mirrors the branch structure of
`fstep`. It depends only on `σ.st` and `σ.largest_dts`. -/
def status (cfg : List Track) (σ : FState) (i : ℕ) : TrackStatus :=
  let tr := cfg.getD i defaultTrack
  let ts := σ.st.getD i defaultTState
  if ts.reach_end_of_media_timeline then .drained
  else if tr.dts.length < ts.current_sample_number then .spent
  else if secs (tr.dts.getD (ts.current_sample_number - 1) 0) tr.timescale ≤ σ.largest_dts
    then .ready else .ahead

/-- A status on which the scheduler makes progress when it visits the track
(a transfer or an exhaustion). -/
def isStop : TrackStatus → Bool
  | .spent => true
  | .ready => true
  | _ => false

/-- The previously visited positions, most recent first:
`c-1, c-2, …, c-n (mod n)` (the last entry is `c` itself). -/
def backPositions (n c : ℕ) : List ℕ :=
  (List.range n).map fun k => (c + (n - 1 - k)) % n

/-- Count `ahead` statuses in a status sequence, stopping at the first
status where the scheduler would make progress. -/
def countWin : List TrackStatus → ℕ
  | [] => 0
  | .ahead :: r => countWin r + 1
  | .drained :: r => countWin r
  | .spent :: _ => 0
  | .ready :: _ => 0

/-- The skip budget of a state: `ahead` tracks visible backwards from the
cursor before any track the scheduler would make progress on. -/
def windowA (cfg : List Track) (σ : FState) : ℕ :=
  countWin ((backPositions cfg.length σ.cursor).map (status cfg σ))

def statusList (cfg : List Track) (σ : FState) : List TrackStatus :=
  (List.range cfg.length).map (status cfg σ)

/- #### Generic list helpers -/

theorem getD_set_self {α : Type} (l : List α) {i : ℕ} (h : i < l.length) (a d : α) :
    (l.set i a).getD i d = a := by
  simp [List.getD_eq_getElem?_getD, List.getElem?_set_self h]

theorem getD_set_ne {α : Type} (l : List α) {i j : ℕ} (h : i ≠ j) (a d : α) :
    (l.set i a).getD j d = l.getD j d := by
  simp [List.getD_eq_getElem?_getD, List.getElem?_set_ne h]

theorem countP_getD_range {α : Type} (q : α → Bool) (d : α) :
    ∀ l : List α, List.countP (fun i => q (l.getD i d)) (List.range l.length) = List.countP q l := by
  intro l
  induction l with
  | nil => simp
  | cons x r ih =>
    have hr : List.range (x :: r).length = 0 :: (List.range r.length).map Nat.succ := by
      simpa using List.range_succ_eq_map r.length
    rw [hr, List.countP_cons, List.countP_map]
    have h2 : List.countP ((fun i => q ((x :: r).getD i d)) ∘ Nat.succ) (List.range r.length)
        = List.countP (fun i => q (r.getD i d)) (List.range r.length) := by
      apply List.countP_congr
      intro i _
      rfl
    rw [h2, ih, List.countP_cons]
    simp [List.getD]

/- #### countWin lemmas -/

theorem countWin_le_dropLast_succ : ∀ l : List TrackStatus, countWin l ≤ countWin l.dropLast + 1 := by
  intro l
  induction l with
  | nil => simp [countWin]
  | cons x r ih =>
    cases r with
    | nil => cases x <;> simp [countWin]
    | cons y rest =>
      have hdl : (x :: y :: rest).dropLast = x :: (y :: rest).dropLast := rfl
      rw [hdl]
      cases x <;> simp [countWin] <;> omega

theorem countWin_eq_dropLast_of_stop :
    ∀ l : List TrackStatus, (∃ x ∈ l, isStop x = true) → countWin l = countWin l.dropLast := by
  intro l
  induction l with
  | nil => intro h; simp at h
  | cons x r ih =>
    intro h
    cases r with
    | nil =>
      obtain ⟨y, hy, hstop⟩ := h
      have hyx : y = x := by simpa using hy
      rw [hyx] at hstop
      cases x <;> simp_all [isStop, countWin]
    | cons y rest =>
      have hdl : (x :: y :: rest).dropLast = x :: (y :: rest).dropLast := rfl
      rw [hdl]
      cases hx : isStop x with
      | true => cases x <;> simp_all [isStop, countWin]
      | false =>
        have hr : ∃ z ∈ y :: rest, isStop z = true := by
          obtain ⟨z, hz, hstop⟩ := h
          rcases List.mem_cons.mp hz with h1 | h1
          · subst h1; rw [hstop] at hx; cases hx
          · exact ⟨z, h1, hstop⟩
        have := ih hr
        cases x <;> simp_all [isStop, countWin]

theorem countWin_eq_countP_of_no_stop :
    ∀ l : List TrackStatus, (∀ x ∈ l, isStop x = false) →
      countWin l = List.countP (fun s => s = TrackStatus.ahead) l := by
  intro l
  induction l with
  | nil => intro _; simp [countWin]
  | cons x r ih =>
    intro h
    have hx := h x (by simp)
    have hr := ih fun z hz => h z (List.mem_cons_of_mem x hz)
    cases x <;> simp_all [isStop, countWin, List.countP_cons]

theorem countWin_le_countP :
    ∀ l : List TrackStatus, countWin l ≤ List.countP (fun s => s = TrackStatus.ahead) l := by
  intro l
  induction l with
  | nil => simp [countWin]
  | cons x r ih => cases x <;> simp [countWin, List.countP_cons] <;> omega

/- #### backPositions lemmas -/

theorem length_backPositions (n c : ℕ) : (backPositions n c).length = n := by
  simp [backPositions]

theorem getElem_backPositions (n c k : ℕ) (h : k < (backPositions n c).length) :
    (backPositions n c)[k] = (c + (n - 1 - k)) % n := by
  simp [backPositions]

theorem backPositions_succ (n c : ℕ) (hn : 0 < n) :
    backPositions n ((c + 1) % n) = (c % n) :: (backPositions n c).dropLast := by
  apply List.ext_getElem
  · simp [length_backPositions, List.length_dropLast]
    omega
  · intro k h1 h2
    rw [getElem_backPositions]
    cases k with
    | zero =>
      show ((c + 1) % n + (n - 1 - 0)) % n = c % n
      rw [Nat.mod_add_mod]
      have : c + 1 + (n - 1 - 0) = c + n := by omega
      rw [this, Nat.add_mod_right]
    | succ j =>
      have hj : j < (backPositions n c).dropLast.length := by
        simpa using h2
      show ((c + 1) % n + (n - 1 - (j + 1))) % n = _
      rw [List.getElem_cons_succ, List.getElem_dropLast, getElem_backPositions]
      rw [Nat.mod_add_mod]
      have hjn : j + 1 < n := by
        have := h1
        simp [length_backPositions] at this
        exact this
      have : c + 1 + (n - 1 - (j + 1)) = c + (n - 1 - j) := by omega
      rw [this]

theorem backPositions_getLast (n c : ℕ) (hn : 0 < n) (h : backPositions n c ≠ []) :
    (backPositions n c).getLast h = c % n := by
  have hlen : (backPositions n c).length = n := length_backPositions n c
  rw [List.getLast_eq_getElem]
  rw [getElem_backPositions]
  have : n - 1 - (n - 1) = 0 := by omega
  simp [hlen, this]

theorem backPositions_perm (n c : ℕ) : (backPositions n c).Perm (List.range n) := by
  rcases Nat.eq_zero_or_pos n with h0 | hn
  · subst h0
    simp [backPositions]
  · have hnodup : (backPositions n c).Nodup := by
      apply List.Nodup.map_on _ (List.nodup_range n)
      intro k1 h1 k2 h2 heq
      have hk1 : k1 < n := List.mem_range.mp h1
      have hk2 : k2 < n := List.mem_range.mp h2
      have hmod : (c + (n - 1 - k1)) % n = (c + (n - 1 - k2)) % n := heq
      have h3 : (n - 1 - k1) % n = (n - 1 - k2) % n :=
        Nat.ModEq.add_left_cancel' c hmod
      have e1 : (n - 1 - k1) % n = n - 1 - k1 := Nat.mod_eq_of_lt (by omega)
      have e2 : (n - 1 - k2) % n = n - 1 - k2 := Nat.mod_eq_of_lt (by omega)
      omega
    have hsub : backPositions n c ⊆ List.range n := by
      intro x hx
      simp only [backPositions, List.mem_map, List.mem_range] at hx
      obtain ⟨k, _, hk⟩ := hx
      subst hk
      exact List.mem_range.mpr (Nat.mod_lt _ hn)
    exact (List.subperm_of_subset hnodup hsub).perm_of_length_le
      (by simp [length_backPositions])

theorem countWin_append_nonahead {x : TrackStatus} (hx : x ≠ .ahead) :
    ∀ l : List TrackStatus, countWin (l ++ [x]) = countWin l := by
  intro l
  induction l with
  | nil => cases x <;> simp_all [countWin]
  | cons y r ih => cases y <;> simp_all [countWin]

/-- The three branch outcomes of one loop iteration, classified by the
status of the track under the cursor. -/
def exhaustState (σ : FState) : FState :=
  { σ with st := σ.st.set σ.cursor
             ⟨(σ.st.getD σ.cursor defaultTState).current_sample_number, true⟩,
           num_active_input_tracks := σ.num_active_input_tracks - 1 }

def transferState (cfg : List Track) (σ : FState) : FState :=
  let tr := cfg.getD σ.cursor defaultTrack
  let ts := σ.st.getD σ.cursor defaultTState
  let d := tr.dts.getD (ts.current_sample_number - 1) 0
  { σ with st := σ.st.set σ.cursor ⟨ts.current_sample_number + 1, false⟩,
           largest_dts := max σ.largest_dts (secs d tr.timescale),
           num_consecutive_sample_skip := 0 }

def skipState (σ : FState) : FState :=
  { σ with num_consecutive_sample_skip := σ.num_consecutive_sample_skip + 1 }

def transferEv (cfg : List Track) (σ : FState) : Transfer :=
  let tr := cfg.getD σ.cursor defaultTrack
  let ts := σ.st.getD σ.cursor defaultTState
  ⟨σ.cursor, ts.current_sample_number, tr.dts.getD (ts.current_sample_number - 1) 0⟩

/-- Case analysis for `fstep` in terms of `status`. -/
theorem fstep_spec (cfg : List Track) (σ : FState) :
    (status cfg σ σ.cursor = .drained ∧ fstep cfg σ = .go (fadvance cfg.length σ) none)
  ∨ (status cfg σ σ.cursor = .spent ∧ σ.num_active_input_tracks - 1 = 0 ∧
       fstep cfg σ = .halt (exhaustState σ))
  ∨ (status cfg σ σ.cursor = .spent ∧ σ.num_active_input_tracks - 1 ≠ 0 ∧
       fstep cfg σ = .go (fadvance cfg.length (exhaustState σ)) none)
  ∨ ((status cfg σ σ.cursor = .ready ∨ (status cfg σ σ.cursor = .ahead ∧
        σ.num_consecutive_sample_skip = σ.num_active_input_tracks)) ∧
       fstep cfg σ = .go (fadvance cfg.length (transferState cfg σ)) (some (transferEv cfg σ)))
  ∨ (status cfg σ σ.cursor = .ahead ∧
       σ.num_consecutive_sample_skip ≠ σ.num_active_input_tracks ∧
       fstep cfg σ = .go (fadvance cfg.length (skipState σ)) none) := by
  by_cases hdone : (σ.st.getD σ.cursor defaultTState).reach_end_of_media_timeline = true
  · left
    refine ⟨?_, ?_⟩
    · simp only [status]
      rw [if_pos hdone]
    · simp only [fstep]
      rw [if_pos hdone]
  · by_cases hexh : (cfg.getD σ.cursor defaultTrack).dts.length
        < (σ.st.getD σ.cursor defaultTState).current_sample_number
    · by_cases hzero : σ.num_active_input_tracks - 1 = 0
      · right; left
        refine ⟨?_, hzero, ?_⟩
        · simp only [status]
          rw [if_neg hdone, if_pos hexh]
        · simp only [fstep]
          rw [if_neg hdone, if_pos hexh, if_pos hzero]
          rfl
      · right; right; left
        refine ⟨?_, hzero, ?_⟩
        · simp only [status]
          rw [if_neg hdone, if_pos hexh]
        · simp only [fstep]
          rw [if_neg hdone, if_pos hexh, if_neg hzero]
          rfl
    · by_cases hle : secs ((cfg.getD σ.cursor defaultTrack).dts.getD
          ((σ.st.getD σ.cursor defaultTState).current_sample_number - 1) 0)
          (cfg.getD σ.cursor defaultTrack).timescale ≤ σ.largest_dts
      · right; right; right; left
        refine ⟨Or.inl ?_, ?_⟩
        · simp only [status]
          rw [if_neg hdone, if_neg hexh, if_pos hle]
        · simp only [fstep]
          rw [if_neg hdone, if_neg hexh, if_pos (Or.inl hle)]
          rfl
      · by_cases hsk : σ.num_consecutive_sample_skip = σ.num_active_input_tracks
        · right; right; right; left
          refine ⟨Or.inr ⟨?_, hsk⟩, ?_⟩
          · simp only [status]
            rw [if_neg hdone, if_neg hexh, if_neg hle]
          · simp only [fstep]
            rw [if_neg hdone, if_neg hexh, if_pos (Or.inr hsk)]
            rfl
        · right; right; right; right
          refine ⟨?_, hsk, ?_⟩
          · simp only [status]
            rw [if_neg hdone, if_neg hexh, if_neg hle]
          · simp only [fstep]
            rw [if_neg hdone, if_neg hexh, if_neg (not_or.mpr ⟨hle, hsk⟩)]
            rfl

/- #### windowA under one step -/

theorem status_ext {cfg : List Track} {σ σ' : FState} (hst : σ'.st = σ.st)
    (hl : σ'.largest_dts = σ.largest_dts) : status cfg σ' = status cfg σ := by
  funext i
  simp only [status, hst, hl]

theorem map_backPositions_succ (f : ℕ → TrackStatus) (n c : ℕ) (hn : 0 < n) (hc : c < n) :
    (backPositions n ((c + 1) % n)).map f = f c :: ((backPositions n c).map f).dropLast := by
  rw [backPositions_succ n c hn, Nat.mod_eq_of_lt hc, List.map_cons, List.map_dropLast]

theorem backPositions_ne_nil (n c : ℕ) (hn : 0 < n) : backPositions n c ≠ [] := by
  intro h
  have h1 := length_backPositions n c
  rw [h] at h1
  simp at h1
  omega

theorem map_backPositions_concat (f : ℕ → TrackStatus) (n c : ℕ) (hn : 0 < n) (hc : c < n) :
    (backPositions n c).map f = ((backPositions n c).map f).dropLast ++ [f c] := by
  have hne0 : backPositions n c ≠ [] := backPositions_ne_nil n c hn
  have h1 : backPositions n c
      = (backPositions n c).dropLast ++ [(backPositions n c).getLast hne0] :=
    (List.dropLast_append_getLast hne0).symm
  have h2 : (backPositions n c).getLast hne0 = c := by
    rw [backPositions_getLast n c hn hne0]
    exact Nat.mod_eq_of_lt hc
  rw [h2] at h1
  calc (backPositions n c).map f
      = ((backPositions n c).dropLast ++ [c]).map f := by rw [← h1]
    _ = ((backPositions n c).dropLast).map f ++ [f c] := by simp
    _ = ((backPositions n c).map f).dropLast ++ [f c] := by rw [List.map_dropLast]

theorem backPositions_nodup (n c : ℕ) : (backPositions n c).Nodup :=
  (backPositions_perm n c).nodup_iff.mpr (List.nodup_range n)

theorem mem_dropLast_backPositions_ne (n c : ℕ) (hn : 0 < n) (hc : c < n) {j : ℕ}
    (hj : j ∈ (backPositions n c).dropLast) : j ≠ c := by
  intro hjc
  have hnd := backPositions_nodup n c
  have h1 : backPositions n c
      = (backPositions n c).dropLast ++ [(backPositions n c).getLast (backPositions_ne_nil n c hn)] :=
    (List.dropLast_append_getLast _).symm
  have h2 : (backPositions n c).getLast (backPositions_ne_nil n c hn) = c := by
    rw [backPositions_getLast n c hn]
    exact Nat.mod_eq_of_lt hc
  rw [h2] at h1
  rw [h1] at hnd
  have h3 := List.nodup_append.mp hnd
  exact h3.2.2 hj (by simp [hjc])

theorem windowA_def (cfg : List Track) (σ : FState) :
    windowA cfg σ = countWin ((backPositions cfg.length σ.cursor).map (status cfg σ)) := rfl

theorem windowA_noop (cfg : List Track) (σ : FState) (hn : 0 < cfg.length)
    (hc : σ.cursor < cfg.length) (hd : status cfg σ σ.cursor = .drained) :
    windowA cfg (fadvance cfg.length σ) = windowA cfg σ := by
  have hss : status cfg (fadvance cfg.length σ) = status cfg σ := status_ext rfl rfl
  show countWin ((backPositions cfg.length ((σ.cursor + 1) % cfg.length)).map
      (status cfg (fadvance cfg.length σ))) = _
  rw [hss, map_backPositions_succ _ _ _ hn hc, hd]
  show countWin (((backPositions cfg.length σ.cursor).map (status cfg σ)).dropLast) = _
  conv_rhs =>
    rw [windowA_def, map_backPositions_concat (status cfg σ) cfg.length σ.cursor hn hc, hd]
  rw [countWin_append_nonahead (by simp)]

theorem windowA_exhaust (cfg : List Track) (σ : FState) (hn : 0 < cfg.length)
    (hc : σ.cursor < cfg.length) (hlen : σ.st.length = cfg.length)
    (hs : status cfg σ σ.cursor = .spent) :
    windowA cfg (fadvance cfg.length (exhaustState σ)) = windowA cfg σ := by
  set f := status cfg σ with hf
  set g := status cfg (exhaustState σ) with hg
  have hgadv : status cfg (fadvance cfg.length (exhaustState σ)) = g := status_ext rfl rfl
  have hgc : g σ.cursor = .drained := by
    simp only [hg, status, exhaustState]
    rw [getD_set_self σ.st (by omega)]
    simp
  have hgne : ∀ j, j ≠ σ.cursor → g j = f j := by
    intro j hj
    simp only [hg, hf, status, exhaustState]
    rw [getD_set_ne σ.st (fun h => hj h.symm)]
  show countWin ((backPositions cfg.length ((σ.cursor + 1) % cfg.length)).map
      (status cfg (fadvance cfg.length (exhaustState σ)))) = _
  rw [hgadv, map_backPositions_succ g cfg.length σ.cursor hn hc, hgc]
  show countWin (((backPositions cfg.length σ.cursor).map g).dropLast) = _
  rw [← List.map_dropLast]
  have hmapeq : ((backPositions cfg.length σ.cursor).dropLast).map g
      = ((backPositions cfg.length σ.cursor).dropLast).map f := by
    apply List.map_congr_left
    intro j hj
    exact hgne j (mem_dropLast_backPositions_ne cfg.length σ.cursor hn hc hj)
  rw [hmapeq]
  conv_rhs =>
    rw [windowA_def, map_backPositions_concat f cfg.length σ.cursor hn hc, hs]
  rw [countWin_append_nonahead (by simp), List.map_dropLast]

theorem windowA_skip (cfg : List Track) (σ : FState) (hn : 0 < cfg.length)
    (hc : σ.cursor < cfg.length) (hlen : σ.st.length = cfg.length)
    (ha : status cfg σ σ.cursor = .ahead)
    (hactive : σ.num_active_input_tracks
      = List.countP (fun t => !t.reach_end_of_media_timeline) σ.st)
    (hskip : σ.num_consecutive_sample_skip ≤ windowA cfg σ)
    (hne : σ.num_consecutive_sample_skip ≠ σ.num_active_input_tracks) :
    σ.num_consecutive_sample_skip + 1 ≤ windowA cfg (fadvance cfg.length (skipState σ)) := by
  set f := status cfg σ with hf
  have hsame : status cfg (fadvance cfg.length (skipState σ)) = f := status_ext rfl rfl
  set L := ((backPositions cfg.length σ.cursor).map f).dropLast with hL
  set M := (backPositions cfg.length σ.cursor).map f with hM
  have hMdec : M = L ++ [TrackStatus.ahead] := by
    rw [hM, hL]
    have := map_backPositions_concat f cfg.length σ.cursor hn hc
    rw [ha] at this
    exact this
  have hWs : windowA cfg (fadvance cfg.length (skipState σ)) = countWin L + 1 := by
    show countWin ((backPositions cfg.length ((σ.cursor + 1) % cfg.length)).map
        (status cfg (fadvance cfg.length (skipState σ)))) = _
    rw [hsame, map_backPositions_succ f cfg.length σ.cursor hn hc, ha]
    rfl
  have hWo : windowA cfg σ = countWin M := rfl
  rw [hWs]
  by_cases hstop : ∃ x ∈ L, isStop x = true
  · -- a stopping status occurs among the strictly previous positions
    have h1 : countWin M = countWin L := by
      have h2 : ∃ x ∈ M, isStop x = true := by
        obtain ⟨x, hx, hsx⟩ := hstop
        exact ⟨x, by rw [hMdec]; exact List.mem_append_left _ hx, hsx⟩
      have h3 := countWin_eq_dropLast_of_stop M h2
      rw [hMdec, List.dropLast_concat] at h3
      rw [hMdec]
      exact h3
    have h4 : σ.num_consecutive_sample_skip ≤ countWin L := by
      rw [hWo, h1] at hskip
      exact hskip
    omega
  · -- no stopping status anywhere: every live track is ahead and the
    -- window counts exactly the active tracks
    have hnostopL : ∀ x ∈ L, isStop x = false := by
      intro x hx
      by_contra hxx
      exact hstop ⟨x, hx, by revert hxx; cases isStop x <;> simp⟩
    have hnostopM : ∀ x ∈ M, isStop x = false := by
      intro x hx
      rw [hMdec] at hx
      rcases List.mem_append.mp hx with h | h
      · exact hnostopL x h
      · have : x = TrackStatus.ahead := by simpa using h
        rw [this]
        rfl
    have hMcount : countWin M = List.countP (fun s => s = TrackStatus.ahead) M :=
      countWin_eq_countP_of_no_stop M hnostopM
    have hLcount : countWin L = List.countP (fun s => s = TrackStatus.ahead) L :=
      countWin_eq_countP_of_no_stop L hnostopL
    have hMLcount : List.countP (fun s => s = TrackStatus.ahead) M
        = List.countP (fun s => s = TrackStatus.ahead) L + 1 := by
      rw [hMdec, List.countP_append]
      simp
    -- transport the count over the permutation with `range n` and into `σ.st`
    have hMactive : List.countP (fun s => s = TrackStatus.ahead) M
        = σ.num_active_input_tracks := by
      have hp1 : List.countP (fun s => s = TrackStatus.ahead) M
          = List.countP ((fun s => decide (s = TrackStatus.ahead)) ∘ f)
              (backPositions cfg.length σ.cursor) := by
        rw [hM, List.countP_map]
      have hp2 : List.countP ((fun s => decide (s = TrackStatus.ahead)) ∘ f)
            (backPositions cfg.length σ.cursor)
          = List.countP ((fun s => decide (s = TrackStatus.ahead)) ∘ f)
              (List.range cfg.length) :=
        (backPositions_perm cfg.length σ.cursor).countP_eq _
      have hp3 : List.countP ((fun s => decide (s = TrackStatus.ahead)) ∘ f)
            (List.range cfg.length)
          = List.countP (fun i =>
              !(σ.st.getD i defaultTState).reach_end_of_media_timeline)
              (List.range cfg.length) := by
        apply List.countP_congr
        intro i hi
        have hin : i < cfg.length := List.mem_range.mp hi
        have hfi : isStop (f i) = false := by
          apply hnostopM
          rw [hM]
          apply List.mem_map_of_mem
          exact ((backPositions_perm cfg.length σ.cursor).mem_iff).mpr hi
        simp only [Function.comp]
        by_cases hflag : (σ.st.getD i defaultTState).reach_end_of_media_timeline = true
        · have : f i = TrackStatus.drained := by
            simp only [hf, status]
            rw [if_pos hflag]
          rw [this, hflag]
          simp
        · have hflag2 : (σ.st.getD i defaultTState).reach_end_of_media_timeline = false := by
            revert hflag
            cases (σ.st.getD i defaultTState).reach_end_of_media_timeline <;> simp
          have : f i = TrackStatus.ahead := by
            simp only [hf, status]
            rw [if_neg hflag]
            by_cases hexh : (cfg.getD i defaultTrack).dts.length
                < (σ.st.getD i defaultTState).current_sample_number
            · exfalso
              have : f i = TrackStatus.spent := by
                simp only [hf, status]
                rw [if_neg hflag, if_pos hexh]
              rw [this] at hfi
              exact absurd hfi (by simp [isStop])
            · rw [if_neg hexh]
              by_cases hle : secs ((cfg.getD i defaultTrack).dts.getD
                  ((σ.st.getD i defaultTState).current_sample_number - 1) 0)
                  (cfg.getD i defaultTrack).timescale ≤ σ.largest_dts
              · exfalso
                have : f i = TrackStatus.ready := by
                  simp only [hf, status]
                  rw [if_neg hflag, if_neg hexh, if_pos hle]
                rw [this] at hfi
                exact absurd hfi (by simp [isStop])
              · rw [if_neg hle]
          rw [this, hflag2]
          simp
      have hp4 : List.countP (fun i =>
            !(σ.st.getD i defaultTState).reach_end_of_media_timeline)
            (List.range cfg.length)
          = List.countP (fun t => !t.reach_end_of_media_timeline) σ.st := by
        rw [← hlen]
        exact countP_getD_range (fun t => !t.reach_end_of_media_timeline) defaultTState σ.st
      rw [hp1, hp2, hp3, hp4, ← hactive]
    have h5 : σ.num_consecutive_sample_skip < σ.num_active_input_tracks := by
      have h6 : σ.num_consecutive_sample_skip ≤ σ.num_active_input_tracks := by
        rw [hWo, hMcount, hMactive] at hskip
        exact hskip
      omega
    rw [hLcount]
    have h7 : List.countP (fun s => s = TrackStatus.ahead) L + 1
        = σ.num_active_input_tracks := by
      rw [← hMLcount, hMactive]
    omega

/- #### status inversion -/

theorem status_drained_iff (cfg : List Track) (σ : FState) (i : ℕ) :
    status cfg σ i = .drained
      ↔ (σ.st.getD i defaultTState).reach_end_of_media_timeline = true := by
  simp only [status]
  split_ifs with h1 h2 h3 <;> simp_all

theorem status_spent_iff (cfg : List Track) (σ : FState) (i : ℕ) :
    status cfg σ i = .spent
      ↔ (σ.st.getD i defaultTState).reach_end_of_media_timeline = false
        ∧ (cfg.getD i defaultTrack).dts.length
          < (σ.st.getD i defaultTState).current_sample_number := by
  simp only [status]
  split_ifs with h1 h2 h3 <;> simp_all

theorem status_ahead_iff (cfg : List Track) (σ : FState) (i : ℕ) :
    status cfg σ i = .ahead
      ↔ (σ.st.getD i defaultTState).reach_end_of_media_timeline = false
        ∧ ¬ (cfg.getD i defaultTrack).dts.length
            < (σ.st.getD i defaultTState).current_sample_number
        ∧ ¬ secs ((cfg.getD i defaultTrack).dts.getD
              ((σ.st.getD i defaultTState).current_sample_number - 1) 0)
            (cfg.getD i defaultTrack).timescale ≤ σ.largest_dts := by
  simp only [status]
  split_ifs with h1 h2 h3 <;> simp_all

theorem status_ready_iff (cfg : List Track) (σ : FState) (i : ℕ) :
    status cfg σ i = .ready
      ↔ (σ.st.getD i defaultTState).reach_end_of_media_timeline = false
        ∧ ¬ (cfg.getD i defaultTrack).dts.length
            < (σ.st.getD i defaultTState).current_sample_number
        ∧ secs ((cfg.getD i defaultTrack).dts.getD
              ((σ.st.getD i defaultTState).current_sample_number - 1) 0)
            (cfg.getD i defaultTrack).timescale ≤ σ.largest_dts := by
  simp only [status]
  split_ifs with h1 h2 h3 <;> simp_all

/-! ### The global scheduler invariant -/

/-- Everything that holds in every reachable state of the scheduler loop:
shape facts, the meaning of `num_active_input_tracks`, the skip-counter
window bound, and the sample-cursor range facts. -/
structure SInv (cfg : List Track) (σ : FState) : Prop where
  n_pos : 0 < cfg.length
  len_eq : σ.st.length = cfg.length
  cursor_lt : σ.cursor < cfg.length
  active_eq : σ.num_active_input_tracks
    = List.countP (fun t => !t.reach_end_of_media_timeline) σ.st
  active_pos : 1 ≤ σ.num_active_input_tracks
  skips_le : σ.num_consecutive_sample_skip ≤ windowA cfg σ
  cur_ge : ∀ i, i < cfg.length → 1 ≤ (σ.st.getD i defaultTState).current_sample_number
  cur_le : ∀ i, i < cfg.length → (σ.st.getD i defaultTState).current_sample_number
    ≤ (cfg.getD i defaultTrack).dts.length + 1
  drained_cur : ∀ i, i < cfg.length →
    (σ.st.getD i defaultTState).reach_end_of_media_timeline = true →
    (σ.st.getD i defaultTState).current_sample_number
      = (cfg.getD i defaultTrack).dts.length + 1

theorem getD_map_const {α β : Type} (l : List α) (b : β) {i : ℕ} (hi : i < l.length) (d : β) :
    (l.map fun _ => b).getD i d = b := by
  rw [List.getD_eq_getElem _ _ (by simpa using hi), List.getElem_map]

theorem sinv_init (cfg : List Track) (hn : 0 < cfg.length) : SInv cfg (initF cfg) := by
  refine ⟨hn, by simp [initF], by simpa [initF] using hn, ?_, ?_, ?_, ?_, ?_, ?_⟩
  · show cfg.length = List.countP _ (cfg.map fun _ => defaultTState)
    rw [List.countP_map]
    rw [show ((fun t => !t.reach_end_of_media_timeline) ∘ fun _ : Track => defaultTState)
        = fun _ : Track => true from rfl]
    simp
  · simpa [initF] using hn
  · exact Nat.zero_le _
  · intro i hi
    show 1 ≤ ((cfg.map fun _ => defaultTState).getD i defaultTState).current_sample_number
    rw [getD_map_const cfg defaultTState hi]
    exact Nat.le_refl 1
  · intro i hi
    show ((cfg.map fun _ => defaultTState).getD i defaultTState).current_sample_number ≤ _
    rw [getD_map_const cfg defaultTState hi]
    exact Nat.le_add_left 1 _
  · intro i hi hflag
    exfalso
    rw [show (initF cfg).st = cfg.map fun _ => defaultTState from rfl,
      getD_map_const cfg defaultTState hi] at hflag
    exact Bool.false_ne_true hflag

/-- Preservation of the invariant along every continuing step. -/
theorem sinv_step {cfg : List Track} {σ σ2 : FState} {ev : Option Transfer}
    (h : SInv cfg σ) (hs : fstep cfg σ = .go σ2 ev) : SInv cfg σ2 := by
  have hn := h.n_pos
  have hclt := h.cursor_lt
  have hstlen : σ.cursor < σ.st.length := by rw [h.len_eq]; exact hclt
  rcases fstep_spec cfg σ with ⟨hst, he⟩ | ⟨hst, hz, he⟩ | ⟨hst, hz, he⟩ | ⟨hst, he⟩
    | ⟨hst, hz, he⟩
  · -- already drained: pure cursor advance
    rw [he] at hs
    injection hs with h1 h2
    subst h1
    exact ⟨hn, h.len_eq, Nat.mod_lt _ hn, h.active_eq, h.active_pos,
      by rw [windowA_noop cfg σ hn hclt hst]; exact h.skips_le,
      h.cur_ge, h.cur_le, h.drained_cur⟩
  · -- halt contradicts a continuing step
    rw [he] at hs
    cases hs
  · -- exhaustion of the current track
    rw [he] at hs
    injection hs with h1 h2
    subst h1
    obtain ⟨hflag, hexh⟩ := (status_spent_iff cfg σ σ.cursor).mp hst
    have hmem : (σ.st.getD σ.cursor defaultTState) = σ.st[σ.cursor] :=
      List.getD_eq_getElem σ.st defaultTState hstlen
    refine ⟨hn, by simp [fadvance, exhaustState, h.len_eq], Nat.mod_lt _ hn, ?_, ?_, ?_,
      ?_, ?_, ?_⟩
    · show σ.num_active_input_tracks - 1 = List.countP _ (σ.st.set σ.cursor _)
      rw [List.countP_set _ _ _ _ hstlen, ← hmem, hflag, h.active_eq]
      simp
    · exact Nat.one_le_iff_ne_zero.mpr hz
    · show σ.num_consecutive_sample_skip ≤ windowA cfg (fadvance cfg.length (exhaustState σ))
      rw [windowA_exhaust cfg σ hn hclt h.len_eq hst]
      exact h.skips_le
    · intro i hi
      show 1 ≤ ((σ.st.set σ.cursor _).getD i defaultTState).current_sample_number
      by_cases hic : σ.cursor = i
      · subst hic
        rw [getD_set_self σ.st hstlen]
        exact h.cur_ge σ.cursor hi
      · rw [getD_set_ne σ.st hic]
        exact h.cur_ge i hi
    · intro i hi
      show ((σ.st.set σ.cursor _).getD i defaultTState).current_sample_number ≤ _
      by_cases hic : σ.cursor = i
      · subst hic
        rw [getD_set_self σ.st hstlen]
        exact h.cur_le σ.cursor hi
      · rw [getD_set_ne σ.st hic]
        exact h.cur_le i hi
    · intro i hi hfl
      by_cases hic : σ.cursor = i
      · subst hic
        show ((σ.st.set σ.cursor _).getD σ.cursor defaultTState).current_sample_number = _
        rw [getD_set_self σ.st hstlen]
        show (σ.st.getD σ.cursor defaultTState).current_sample_number
          = (cfg.getD σ.cursor defaultTrack).dts.length + 1
        have h1 := h.cur_le σ.cursor hi
        omega
      · rw [show ((fadvance cfg.length (exhaustState σ)).st) = σ.st.set σ.cursor
            ⟨(σ.st.getD σ.cursor defaultTState).current_sample_number, true⟩ from rfl,
          getD_set_ne σ.st hic] at hfl ⊢
        exact h.drained_cur i hi hfl
  · -- transfer
    rw [he] at hs
    injection hs with h1 h2
    subst h1
    have hflag : (σ.st.getD σ.cursor defaultTState).reach_end_of_media_timeline = false := by
      rcases hst with hr | ⟨ha, _⟩
      · exact ((status_ready_iff cfg σ σ.cursor).mp hr).1
      · exact ((status_ahead_iff cfg σ σ.cursor).mp ha).1
    have hexh : ¬ (cfg.getD σ.cursor defaultTrack).dts.length
        < (σ.st.getD σ.cursor defaultTState).current_sample_number := by
      rcases hst with hr | ⟨ha, _⟩
      · exact ((status_ready_iff cfg σ σ.cursor).mp hr).2.1
      · exact ((status_ahead_iff cfg σ σ.cursor).mp ha).2.1
    have hmem : (σ.st.getD σ.cursor defaultTState) = σ.st[σ.cursor] :=
      List.getD_eq_getElem σ.st defaultTState hstlen
    refine ⟨hn, by simp [fadvance, transferState, h.len_eq], Nat.mod_lt _ hn, ?_, h.active_pos,
      Nat.zero_le _, ?_, ?_, ?_⟩
    · show σ.num_active_input_tracks = List.countP _ (σ.st.set σ.cursor _)
      rw [List.countP_set _ _ _ _ hstlen, ← hmem, hflag, h.active_eq]
      simp
      have hpos : 0 < List.countP (fun t => !t.reach_end_of_media_timeline) σ.st := by
        rw [List.countP_pos_iff]
        refine ⟨σ.st[σ.cursor], List.getElem_mem _, ?_⟩
        rw [← hmem, hflag]
        rfl
      omega
    · intro i hi
      show 1 ≤ ((σ.st.set σ.cursor _).getD i defaultTState).current_sample_number
      by_cases hic : σ.cursor = i
      · subst hic
        rw [getD_set_self σ.st hstlen]
        exact Nat.succ_le_succ (Nat.zero_le _)
      · rw [getD_set_ne σ.st hic]
        exact h.cur_ge i hi
    · intro i hi
      show ((σ.st.set σ.cursor _).getD i defaultTState).current_sample_number ≤ _
      by_cases hic : σ.cursor = i
      · subst hic
        rw [getD_set_self σ.st hstlen]
        exact Nat.succ_le_succ (Nat.not_lt.mp hexh)
      · rw [getD_set_ne σ.st hic]
        exact h.cur_le i hi
    · intro i hi hfl
      by_cases hic : σ.cursor = i
      · subst hic
        rw [show ((fadvance cfg.length (transferState cfg σ)).st) = σ.st.set σ.cursor
            ⟨(σ.st.getD σ.cursor defaultTState).current_sample_number + 1, false⟩ from rfl,
          getD_set_self σ.st hstlen] at hfl
        cases hfl
      · rw [show ((fadvance cfg.length (transferState cfg σ)).st) = σ.st.set σ.cursor
            ⟨(σ.st.getD σ.cursor defaultTState).current_sample_number + 1, false⟩ from rfl,
          getD_set_ne σ.st hic] at hfl ⊢
        exact h.drained_cur i hi hfl
  · -- skip
    rw [he] at hs
    injection hs with h1 h2
    subst h1
    exact ⟨hn, h.len_eq, Nat.mod_lt _ hn, h.active_eq, h.active_pos,
      windowA_skip cfg σ hn hclt h.len_eq hst h.active_eq h.skips_le hz,
      h.cur_ge, h.cur_le, h.drained_cur⟩

/-- The C3 bound in its state form: in every state satisfying the
invariant, the skip counter is at most the number of active tracks. -/
theorem sinv_skips_le_active {cfg : List Track} {σ : FState} (h : SInv cfg σ) :
    σ.num_consecutive_sample_skip ≤ σ.num_active_input_tracks := by
  have h1 : List.countP (fun s => s = TrackStatus.ahead)
        ((backPositions cfg.length σ.cursor).map (status cfg σ))
      = List.countP ((fun s => decide (s = TrackStatus.ahead)) ∘ status cfg σ)
        (List.range cfg.length) := by
    rw [List.countP_map]
    exact (backPositions_perm cfg.length σ.cursor).countP_eq _
  refine le_trans h.skips_le
    (le_trans (countWin_le_countP _) (le_trans (le_of_eq h1) ?_))
  have h2 : List.countP ((fun s => decide (s = TrackStatus.ahead)) ∘ status cfg σ)
        (List.range cfg.length)
      ≤ List.countP (fun i => !(σ.st.getD i defaultTState).reach_end_of_media_timeline)
        (List.range cfg.length) := by
    apply List.countP_mono_left
    intro i _ hp
    simp only [Function.comp] at hp
    have ha : status cfg σ i = TrackStatus.ahead := by
      revert hp
      cases status cfg σ i <;> simp
    have := ((status_ahead_iff cfg σ i).mp ha).1
    rw [this]
    rfl
  refine le_trans h2 ?_
  rw [h.active_eq, ← h.len_eq]
  exact le_of_eq (countP_getD_range (fun t => !t.reach_end_of_media_timeline)
    defaultTState σ.st)

/-! ### Termination

A lexicographic measure: the potential `Phi` (total remaining samples plus
remaining exhaustion events) drops at every transfer or exhaustion, and the
waiting bound `Wb` drops at every other continuing step. -/

/-- Samples not yet transferred out of one track, plus implicitly the
pending exhaustion event while `current_sample_number ≤ length`. -/
def remOf (tr : Track) (ts : TState) : ℕ :=
  tr.dts.length + 1 - ts.current_sample_number

/-- Total progress potential of a state. -/
def Phi (cfg : List Track) (σ : FState) : ℕ :=
  σ.num_active_input_tracks +
    ((List.range cfg.length).map fun i =>
      remOf (cfg.getD i defaultTrack) (σ.st.getD i defaultTState)).sum

/-- The positions the cursor will visit, in order: `c, c+1, …, c+n-1`. -/
def forwardPositions (n c : ℕ) : List ℕ :=
  (List.range n).map fun k => (c + k) % n

/-- Index of the first entry satisfying `p` (the list's length if none). -/
def firstIdx (p : ℕ → Bool) : List ℕ → ℕ
  | [] => 0
  | j :: rest => if p j then 0 else firstIdx p rest + 1

theorem firstIdx_le_length (p : ℕ → Bool) : ∀ l : List ℕ, firstIdx p l ≤ l.length := by
  intro l
  induction l with
  | nil => simp [firstIdx]
  | cons j rest ih =>
    by_cases hj : p j = true
    · simp [firstIdx, hj]
    · simp only [firstIdx, if_neg hj, List.length_cons]
      omega

theorem firstIdx_dropLast_of_found (p : ℕ → Bool) :
    ∀ l : List ℕ, (∃ x ∈ l.dropLast, p x = true) → firstIdx p l = firstIdx p l.dropLast := by
  intro l
  induction l with
  | nil => intro h; simp at h
  | cons j rest ih =>
    intro h
    cases rest with
    | nil => simp at h
    | cons k rest2 =>
      have hdl : (j :: k :: rest2).dropLast = j :: (k :: rest2).dropLast := rfl
      rw [hdl] at h ⊢
      by_cases hj : p j = true
      · simp [firstIdx, hj]
      · have hfound : ∃ x ∈ (k :: rest2).dropLast, p x = true := by
          obtain ⟨x, hx, hpx⟩ := h
          rcases List.mem_cons.mp hx with h1 | h1
          · rw [h1] at hpx
            exact absurd hpx hj
          · exact ⟨x, h1, hpx⟩
        conv_lhs => rw [firstIdx]
        rw [if_neg hj, ih hfound]
        conv_rhs => rw [firstIdx]
        rw [if_neg hj]

/-- `forwardPositions` of the next cursor, related to the current one. -/
theorem forwardPositions_eq_cons (n c : ℕ) (hn : 0 < n) (hc : c < n) :
    forwardPositions n c = c :: (forwardPositions n ((c + 1) % n)).dropLast := by
  apply List.ext_getElem
  · simp [forwardPositions]
    omega
  · intro k h1 h2
    simp only [forwardPositions, List.getElem_map, List.getElem_range]
    cases k with
    | zero =>
      show (c + 0) % n = _
      simp [Nat.mod_eq_of_lt hc]
    | succ j =>
      rw [List.getElem_cons_succ, List.getElem_dropLast]
      simp only [forwardPositions, List.getElem_map, List.getElem_range]
      rw [Nat.mod_add_mod]
      have : c + 1 + j = c + (j + 1) := by omega
      rw [this]

theorem length_forwardPositions (n c : ℕ) : (forwardPositions n c).length = n := by
  simp [forwardPositions]

theorem mem_forwardPositions (n c j : ℕ) (hn : 0 < n) (hc : c < n) (hj : j < n) :
    j ∈ forwardPositions n c := by
  simp only [forwardPositions, List.mem_map, List.mem_range]
  rcases le_or_lt c j with hcj | hcj
  · exact ⟨j - c, by omega, by rw [show c + (j - c) = j by omega]; exact Nat.mod_eq_of_lt hj⟩
  · refine ⟨j + n - c, by omega, ?_⟩
    rw [show c + (j + n - c) = j + n by omega, Nat.add_mod_right]
    exact Nat.mod_eq_of_lt hj

theorem mem_dropLast_forwardPositions_ne (n c : ℕ) (hn : 0 < n) (hc : c < n) {j : ℕ}
    (hj : j ∈ (forwardPositions n ((c + 1) % n)).dropLast) : j ≠ c := by
  have heq := forwardPositions_eq_cons n c hn hc
  have hnodup : (forwardPositions n c).Nodup := by
    apply List.Nodup.map_on _ (List.nodup_range n)
    intro k1 h1 k2 h2 hk
    have hk1 : k1 < n := List.mem_range.mp h1
    have hk2 : k2 < n := List.mem_range.mp h2
    have h3 : k1 % n = k2 % n := Nat.ModEq.add_left_cancel' c hk
    rw [Nat.mod_eq_of_lt hk1, Nat.mod_eq_of_lt hk2] at h3
    exact h3
  rw [heq] at hnodup
  intro hjc
  rw [hjc] at hj
  exact (List.nodup_cons.mp hnodup).1 hj

/-- Whether some track would make progress when visited. -/
def stopAny (cfg : List Track) (σ : FState) : Bool :=
  (List.range cfg.length).any fun i => isStop (status cfg σ i)

/-- Steps remaining until the next progress event. -/
def Wb (cfg : List Track) (σ : FState) : ℕ :=
  if stopAny cfg σ then
    firstIdx (fun j => isStop (status cfg σ j)) (forwardPositions cfg.length σ.cursor)
  else
    (σ.num_active_input_tracks - σ.num_consecutive_sample_skip) * cfg.length +
      firstIdx (fun j => status cfg σ j = TrackStatus.ahead)
        (forwardPositions cfg.length σ.cursor)

def KK (n : ℕ) : ℕ := n * n + 2 * n + 1

/-- The full termination measure of a state. -/
def mu (cfg : List Track) (σ : FState) : ℕ := Phi cfg σ * KK cfg.length + Wb cfg σ

theorem Wb_lt_KK {cfg : List Track} {σ : FState} (h : SInv cfg σ) :
    Wb cfg σ < KK cfg.length := by
  have hactive : σ.num_active_input_tracks ≤ cfg.length := by
    rw [h.active_eq, ← h.len_eq]
    exact le_trans (List.countP_le_length _) (le_refl _)
  unfold Wb KK
  split_ifs with hstop
  · have := firstIdx_le_length (fun j => isStop (status cfg σ j))
      (forwardPositions cfg.length σ.cursor)
    rw [length_forwardPositions] at this
    nlinarith [h.n_pos]
  · have h1 := firstIdx_le_length (fun j => status cfg σ j = TrackStatus.ahead)
      (forwardPositions cfg.length σ.cursor)
    rw [length_forwardPositions] at h1
    have h2 : (σ.num_active_input_tracks - σ.num_consecutive_sample_skip) ≤ cfg.length := by
      omega
    nlinarith [h.n_pos]

theorem firstIdx_lt_length_of_found (p : ℕ → Bool) :
    ∀ l : List ℕ, (∃ x ∈ l, p x = true) → firstIdx p l < l.length := by
  intro l
  induction l with
  | nil => intro h; simp at h
  | cons j rest ih =>
    intro h
    by_cases hj : p j = true
    · simp [firstIdx, hj]
    · have hr : ∃ x ∈ rest, p x = true := by
        obtain ⟨x, hx, hpx⟩ := h
        rcases List.mem_cons.mp hx with h1 | h1
        · rw [h1] at hpx
          exact absurd hpx hj
        · exact ⟨x, h1, hpx⟩
      simp only [firstIdx, if_neg hj, List.length_cons]
      exact Nat.succ_lt_succ (ih hr)

theorem forwardPositions_getLast (n c : ℕ) (hn : 0 < n)
    (h : forwardPositions n c ≠ []) :
    (forwardPositions n c).getLast h = (c + (n - 1)) % n := by
  rw [List.getLast_eq_getElem]
  simp only [forwardPositions, List.getElem_map, List.getElem_range, List.length_map,
    List.length_range]

/-- The key decrease: visiting a position that does not satisfy `p` while
some position does strictly decreases the distance to the first hit. -/
theorem firstIdx_advance_lt (p : ℕ → Bool) (n c : ℕ) (hn : 0 < n) (hc : c < n)
    (hpc : p c = false) (hfound : ∃ i, i < n ∧ p i = true) :
    firstIdx p (forwardPositions n ((c + 1) % n))
      < firstIdx p (forwardPositions n c) := by
  have hcons := forwardPositions_eq_cons n c hn hc
  have hc1 : (c + 1) % n < n := Nat.mod_lt _ hn
  obtain ⟨i, hi, hpi⟩ := hfound
  have hine : i ≠ c := by
    intro he
    rw [he, hpc] at hpi
    cases hpi
  have hne : forwardPositions n ((c + 1) % n) ≠ [] := by
    intro hnil
    have := length_forwardPositions n ((c + 1) % n)
    rw [hnil] at this
    simp at this
    omega
  have hlast : (forwardPositions n ((c + 1) % n)).getLast hne = c := by
    rw [forwardPositions_getLast n _ hn hne, Nat.mod_add_mod]
    have h1 : c + 1 + (n - 1) = c + n := by omega
    rw [h1, Nat.add_mod_right]
    exact Nat.mod_eq_of_lt hc
  have hmemi : i ∈ (forwardPositions n ((c + 1) % n)).dropLast := by
    have h2 : i ∈ forwardPositions n ((c + 1) % n) :=
      mem_forwardPositions n _ i hn hc1 hi
    have h3 := List.dropLast_append_getLast hne
    rw [hlast] at h3
    rw [← h3] at h2
    rcases List.mem_append.mp h2 with h4 | h4
    · exact h4
    · exfalso
      exact hine (by simpa using h4)
  have hfidx : firstIdx p (forwardPositions n ((c + 1) % n))
      = firstIdx p ((forwardPositions n ((c + 1) % n)).dropLast) :=
    firstIdx_dropLast_of_found p _ ⟨i, hmemi, hpi⟩
  rw [hcons, hfidx]
  show _ < if p c = true then 0 else _ + 1
  rw [if_neg (by rw [hpc]; exact Bool.false_ne_true)]
  omega

theorem stopAny_congr {cfg : List Track} {σ σ' : FState}
    (hs : status cfg σ' = status cfg σ) : stopAny cfg σ' = stopAny cfg σ := by
  unfold stopAny
  rw [hs]

/-- If some track exists and no track would make progress when visited,
some track is ahead of the watermark. -/
theorem exists_ahead_of_no_stop {cfg : List Track} {σ : FState} (h : SInv cfg σ)
    (hns : stopAny cfg σ = false) :
    ∃ i, i < cfg.length ∧ status cfg σ i = TrackStatus.ahead := by
  have h1 : 0 < List.countP
      (fun i => !(σ.st.getD i defaultTState).reach_end_of_media_timeline)
      (List.range cfg.length) := by
    rw [← h.len_eq,
      countP_getD_range (fun t => !t.reach_end_of_media_timeline) defaultTState σ.st,
      ← h.active_eq]
    exact h.active_pos
  obtain ⟨i, hmem, hflag⟩ := List.countP_pos_iff.mp h1
  have hi : i < cfg.length := List.mem_range.mp hmem
  have hstopi : isStop (status cfg σ i) = false := by
    have h2 : ∀ x ∈ List.range cfg.length, ¬ isStop (status cfg σ x) = true := by
      rw [← List.any_eq_false]
      exact hns
    have h3 := h2 i hmem
    revert h3
    cases isStop (status cfg σ i) <;> simp
  cases hstatus : status cfg σ i with
  | drained =>
    exfalso
    have h4 := (status_drained_iff cfg σ i).mp hstatus
    rw [h4] at hflag
    simp at hflag
  | spent =>
    exfalso
    rw [hstatus] at hstopi
    cases hstopi
  | ready =>
    exfalso
    rw [hstatus] at hstopi
    cases hstopi
  | ahead => exact ⟨i, hi, hstatus⟩

theorem sum_range_update (f g : ℕ → ℕ) :
    ∀ n c : ℕ, c < n → (∀ i, i < n → i ≠ c → g i = f i) →
    ((List.range n).map g).sum + f c = ((List.range n).map f).sum + g c := by
  intro n
  induction n with
  | zero => intro c hc _; exact absurd hc (Nat.not_lt_zero c)
  | succ m ih =>
    intro c hc hg
    rw [List.range_succ, List.map_append, List.map_append, List.sum_append, List.sum_append]
    simp only [List.map_cons, List.map_nil, List.sum_cons, List.sum_nil]
    by_cases hcm : c = m
    · subst hcm
      have heq : (List.range c).map g = (List.range c).map f := by
        apply List.map_congr_left
        intro i hi
        have hi2 := List.mem_range.mp hi
        exact hg i (by omega) (by omega)
      rw [heq]
      omega
    · have h1 := ih c (by omega) (fun i hi hic => hg i (by omega) hic)
      have h2 : g m = f m := hg m (by omega) (fun he => hcm he.symm)
      omega

/-- Every continuing iteration strictly decreases the measure. -/
theorem mu_decreases {cfg : List Track} {σ σ2 : FState} {ev : Option Transfer}
    (h : SInv cfg σ) (hs : fstep cfg σ = .go σ2 ev) : mu cfg σ2 < mu cfg σ := by
  have h2 := sinv_step h hs
  have hn := h.n_pos
  have hclt := h.cursor_lt
  have hstlen : σ.cursor < σ.st.length := by rw [h.len_eq]; exact hclt
  rcases fstep_spec cfg σ with ⟨hst, he⟩ | ⟨hst, hz, he⟩ | ⟨hst, hz, he⟩ | ⟨hst, he⟩
    | ⟨hst, hz, he⟩
  · -- noop on a drained track: Wb strictly decreases, Phi unchanged
    rw [he] at hs
    injection hs with h1 h2e
    subst h1
    have hphi : Phi cfg (fadvance cfg.length σ) = Phi cfg σ := rfl
    have hstat : status cfg (fadvance cfg.length σ) = status cfg σ := status_ext rfl rfl
    have hsa : stopAny cfg (fadvance cfg.length σ) = stopAny cfg σ := stopAny_congr hstat
    have hwb : Wb cfg (fadvance cfg.length σ) < Wb cfg σ := by
      unfold Wb
      rw [hstat, hsa]
      simp only [fadvance]
      by_cases hcase : stopAny cfg σ = true
      · rw [if_pos hcase, if_pos hcase]
        apply firstIdx_advance_lt _ _ _ hn hclt
        · show isStop (status cfg σ σ.cursor) = false
          rw [hst]
          rfl
        · obtain ⟨i, himem, hp⟩ := List.any_eq_true.mp hcase
          exact ⟨i, List.mem_range.mp himem, hp⟩
      · rw [if_neg hcase, if_neg hcase]
        apply Nat.add_lt_add_left
        apply firstIdx_advance_lt _ _ _ hn hclt
        · show decide (status cfg σ σ.cursor = TrackStatus.ahead) = false
          rw [hst]
          rfl
        · have hfalse : stopAny cfg σ = false := by
            revert hcase
            cases stopAny cfg σ <;> simp
          obtain ⟨i, hi, hai⟩ := exists_ahead_of_no_stop h hfalse
          exact ⟨i, hi, by rw [hai]; rfl⟩
    unfold mu
    rw [hphi]
    exact Nat.add_lt_add_left hwb _
  · -- halt is not a continuing step
    rw [he] at hs
    cases hs
  · -- exhaustion: Phi strictly decreases
    rw [he] at hs
    injection hs with h1 h2e
    subst h1
    have hsum : ((List.range cfg.length).map fun i =>
          remOf (cfg.getD i defaultTrack)
            ((fadvance cfg.length (exhaustState σ)).st.getD i defaultTState)).sum
        = ((List.range cfg.length).map fun i =>
          remOf (cfg.getD i defaultTrack) (σ.st.getD i defaultTState)).sum := by
      congr 1
      apply List.map_congr_left
      intro i hi
      by_cases hic : σ.cursor = i
      · subst hic
        show remOf _ ((σ.st.set σ.cursor _).getD σ.cursor defaultTState) = _
        rw [getD_set_self σ.st hstlen]
        rfl
      · show remOf _ ((σ.st.set σ.cursor _).getD i defaultTState) = _
        rw [getD_set_ne σ.st hic]
    have hphi2 : Phi cfg (fadvance cfg.length (exhaustState σ)) + 1 = Phi cfg σ := by
      unfold Phi
      rw [hsum]
      have ha : (fadvance cfg.length (exhaustState σ)).num_active_input_tracks
          = σ.num_active_input_tracks - 1 := rfl
      rw [ha]
      have := h.active_pos
      omega
    have hwb2 : Wb cfg (fadvance cfg.length (exhaustState σ)) < KK cfg.length := Wb_lt_KK h2
    unfold mu
    calc Phi cfg (fadvance cfg.length (exhaustState σ)) * KK cfg.length
          + Wb cfg (fadvance cfg.length (exhaustState σ))
        < Phi cfg (fadvance cfg.length (exhaustState σ)) * KK cfg.length + KK cfg.length :=
          Nat.add_lt_add_left hwb2 _
      _ = (Phi cfg (fadvance cfg.length (exhaustState σ)) + 1) * KK cfg.length := by
          rw [Nat.succ_mul]
      _ = Phi cfg σ * KK cfg.length := by rw [hphi2]
      _ ≤ Phi cfg σ * KK cfg.length + Wb cfg σ := Nat.le_add_right _ _
  · -- transfer: Phi strictly decreases
    rw [he] at hs
    injection hs with h1 h2e
    subst h1
    have hexh : ¬ (cfg.getD σ.cursor defaultTrack).dts.length
        < (σ.st.getD σ.cursor defaultTState).current_sample_number := by
      rcases hst with hr | ⟨ha, _⟩
      · exact ((status_ready_iff cfg σ σ.cursor).mp hr).2.1
      · exact ((status_ahead_iff cfg σ σ.cursor).mp ha).2.1
    have hupd := sum_range_update
      (fun i => remOf (cfg.getD i defaultTrack) (σ.st.getD i defaultTState))
      (fun i => remOf (cfg.getD i defaultTrack)
        ((fadvance cfg.length (transferState cfg σ)).st.getD i defaultTState))
      cfg.length σ.cursor hclt
      (by
        intro i hi hic
        show remOf _ ((σ.st.set σ.cursor _).getD i defaultTState) = _
        rw [getD_set_ne σ.st (fun he2 => hic he2.symm)])
    have hgc : remOf (cfg.getD σ.cursor defaultTrack)
          ((fadvance cfg.length (transferState cfg σ)).st.getD σ.cursor defaultTState) + 1
        = remOf (cfg.getD σ.cursor defaultTrack) (σ.st.getD σ.cursor defaultTState) := by
      show remOf _ ((σ.st.set σ.cursor _).getD σ.cursor defaultTState) + 1 = _
      rw [getD_set_self σ.st hstlen]
      show (cfg.getD σ.cursor defaultTrack).dts.length + 1
          - ((σ.st.getD σ.cursor defaultTState).current_sample_number + 1) + 1
        = (cfg.getD σ.cursor defaultTrack).dts.length + 1
          - (σ.st.getD σ.cursor defaultTState).current_sample_number
      omega
    have hupd2 : ((List.range cfg.length).map fun i =>
          remOf (cfg.getD i defaultTrack)
            ((fadvance cfg.length (transferState cfg σ)).st.getD i defaultTState)).sum
        + remOf (cfg.getD σ.cursor defaultTrack) (σ.st.getD σ.cursor defaultTState)
        = ((List.range cfg.length).map fun i =>
          remOf (cfg.getD i defaultTrack) (σ.st.getD i defaultTState)).sum
        + remOf (cfg.getD σ.cursor defaultTrack)
            ((fadvance cfg.length (transferState cfg σ)).st.getD σ.cursor defaultTState) :=
      hupd
    have hPhi2eq : Phi cfg (fadvance cfg.length (transferState cfg σ))
        = σ.num_active_input_tracks + ((List.range cfg.length).map fun i =>
          remOf (cfg.getD i defaultTrack)
            ((fadvance cfg.length (transferState cfg σ)).st.getD i defaultTState)).sum := rfl
    have hPhieq : Phi cfg σ = σ.num_active_input_tracks
        + ((List.range cfg.length).map fun i =>
          remOf (cfg.getD i defaultTrack) (σ.st.getD i defaultTState)).sum := rfl
    have hsum2 : ((List.range cfg.length).map fun i =>
          remOf (cfg.getD i defaultTrack)
            ((fadvance cfg.length (transferState cfg σ)).st.getD i defaultTState)).sum + 1
        = ((List.range cfg.length).map fun i =>
          remOf (cfg.getD i defaultTrack) (σ.st.getD i defaultTState)).sum := by
      have h5 : ((List.range cfg.length).map fun i =>
            remOf (cfg.getD i defaultTrack)
              ((fadvance cfg.length (transferState cfg σ)).st.getD i defaultTState)).sum
          + (remOf (cfg.getD σ.cursor defaultTrack)
              ((fadvance cfg.length (transferState cfg σ)).st.getD σ.cursor defaultTState) + 1)
          = ((List.range cfg.length).map fun i =>
            remOf (cfg.getD i defaultTrack) (σ.st.getD i defaultTState)).sum
          + remOf (cfg.getD σ.cursor defaultTrack)
              ((fadvance cfg.length (transferState cfg σ)).st.getD σ.cursor defaultTState) := by
        rw [hgc]
        exact hupd2
      omega
    have hphi2 : Phi cfg (fadvance cfg.length (transferState cfg σ)) + 1 = Phi cfg σ := by
      rw [hPhi2eq, hPhieq]
      omega
    have hwb2 : Wb cfg (fadvance cfg.length (transferState cfg σ)) < KK cfg.length :=
      Wb_lt_KK h2
    unfold mu
    calc Phi cfg (fadvance cfg.length (transferState cfg σ)) * KK cfg.length
          + Wb cfg (fadvance cfg.length (transferState cfg σ))
        < Phi cfg (fadvance cfg.length (transferState cfg σ)) * KK cfg.length
            + KK cfg.length := Nat.add_lt_add_left hwb2 _
      _ = (Phi cfg (fadvance cfg.length (transferState cfg σ)) + 1) * KK cfg.length := by
          rw [Nat.succ_mul]
      _ = Phi cfg σ * KK cfg.length := by rw [hphi2]
      _ ≤ Phi cfg σ * KK cfg.length + Wb cfg σ := Nat.le_add_right _ _
  · -- skip: Wb strictly decreases, Phi unchanged
    rw [he] at hs
    injection hs with h1 h2e
    subst h1
    have hphi : Phi cfg (fadvance cfg.length (skipState σ)) = Phi cfg σ := rfl
    have hstat : status cfg (fadvance cfg.length (skipState σ)) = status cfg σ :=
      status_ext rfl rfl
    have hsa : stopAny cfg (fadvance cfg.length (skipState σ)) = stopAny cfg σ :=
      stopAny_congr hstat
    have hwb : Wb cfg (fadvance cfg.length (skipState σ)) < Wb cfg σ := by
      unfold Wb
      rw [hstat, hsa]
      simp only [fadvance, skipState]
      by_cases hcase : stopAny cfg σ = true
      · rw [if_pos hcase, if_pos hcase]
        apply firstIdx_advance_lt _ _ _ hn hclt
        · show isStop (status cfg σ σ.cursor) = false
          rw [hst]
          rfl
        · obtain ⟨i, himem, hp⟩ := List.any_eq_true.mp hcase
          exact ⟨i, List.mem_range.mp himem, hp⟩
      · rw [if_neg hcase, if_neg hcase]
        have hslt : σ.num_consecutive_sample_skip < σ.num_active_input_tracks :=
          lt_of_le_of_ne (sinv_skips_le_active h) hz
        have hc1 : (σ.cursor + 1) % cfg.length < cfg.length := Nat.mod_lt _ hn
        have hδ0 : firstIdx (fun j => status cfg σ j = TrackStatus.ahead)
            (forwardPositions cfg.length σ.cursor) = 0 := by
          rw [forwardPositions_eq_cons cfg.length σ.cursor hn hclt]
          show (if decide (status cfg σ σ.cursor = TrackStatus.ahead) = true then 0 else _) = 0
          rw [if_pos (by rw [hst]; rfl)]
        have hδlt : firstIdx (fun j => status cfg σ j = TrackStatus.ahead)
            (forwardPositions cfg.length ((σ.cursor + 1) % cfg.length)) < cfg.length := by
          have hfnd : ∃ x ∈ forwardPositions cfg.length ((σ.cursor + 1) % cfg.length),
              decide (status cfg σ x = TrackStatus.ahead) = true :=
            ⟨σ.cursor, mem_forwardPositions _ _ _ hn hc1 hclt, by rw [hst]; rfl⟩
          have := firstIdx_lt_length_of_found _ _ hfnd
          rwa [length_forwardPositions] at this
        rw [hδ0]
        have hsub : σ.num_active_input_tracks - σ.num_consecutive_sample_skip
            = (σ.num_active_input_tracks - (σ.num_consecutive_sample_skip + 1)) + 1 := by
          omega
        rw [hsub, Nat.succ_mul]
        set X := (σ.num_active_input_tracks - (σ.num_consecutive_sample_skip + 1))
          * cfg.length with hX
        omega
    unfold mu
    rw [hphi]
    exact Nat.add_lt_add_left hwb _

/-- With fuel exceeding the measure, the run reaches the loop break. -/
theorem frunAux_halts (cfg : List Track) :
    ∀ fuel σ acc, SInv cfg σ → mu cfg σ < fuel →
    ∃ trs σf, frunAux cfg fuel σ acc = some (trs, σf) := by
  intro fuel
  induction fuel with
  | zero => intro σ acc _ hlt; exact absurd hlt (Nat.not_lt_zero _)
  | succ fu ih =>
    intro σ acc hinv hlt
    cases hstep : fstep cfg σ with
    | halt final =>
      refine ⟨acc, final, ?_⟩
      rw [frunAux, hstep]
    | go next ev =>
      have h2 := sinv_step hinv hstep
      have h3 := mu_decreases hinv hstep
      obtain ⟨trs, σf, hres⟩ := ih next (acc ++ ev.toList) h2 (by omega)
      refine ⟨trs, σf, ?_⟩
      rw [frunAux, hstep]
      exact hres

/-- When the loop breaks, the active counter has hit zero and every track
has reached the end of its media timeline, with its sample cursor one past
its last sample. -/
theorem fstep_halt_final {cfg : List Track} {σ σf : FState} (h : SInv cfg σ)
    (hs : fstep cfg σ = .halt σf) :
    σf.num_active_input_tracks = 0
    ∧ σf.st.length = cfg.length
    ∧ ∀ i, i < cfg.length →
        (σf.st.getD i defaultTState).reach_end_of_media_timeline = true
        ∧ (σf.st.getD i defaultTState).current_sample_number
          = (cfg.getD i defaultTrack).dts.length + 1 := by
  have hstlen : σ.cursor < σ.st.length := by rw [h.len_eq]; exact h.cursor_lt
  rcases fstep_spec cfg σ with ⟨hst, he⟩ | ⟨hst, hz, he⟩ | ⟨hst, hz, he⟩ | ⟨hst, he⟩
    | ⟨hst, hz, he⟩ <;> rw [he] at hs <;> try cases hs
  obtain ⟨hflag, hexh⟩ := (status_spent_iff cfg σ σ.cursor).mp hst
  have hmem : (σ.st.getD σ.cursor defaultTState) = σ.st[σ.cursor] :=
    List.getD_eq_getElem σ.st defaultTState hstlen
  have hcount1 : List.countP (fun t => !t.reach_end_of_media_timeline) σ.st = 1 := by
    have h1 := h.active_eq
    have h2 := h.active_pos
    omega
  have hcount0 : List.countP (fun t => !t.reach_end_of_media_timeline)
      (σ.st.set σ.cursor
        ⟨(σ.st.getD σ.cursor defaultTState).current_sample_number, true⟩) = 0 := by
    rw [List.countP_set _ _ _ _ hstlen, ← hmem, hflag, hcount1]
    simp
  refine ⟨hz, by simp [exhaustState, h.len_eq], ?_⟩
  intro i hi
  have hstlen2 : i < (σ.st.set σ.cursor
      ⟨(σ.st.getD σ.cursor defaultTState).current_sample_number, true⟩).length := by
    rw [List.length_set, h.len_eq]
    exact hi
  have hdrained : ((exhaustState σ).st.getD i defaultTState).reach_end_of_media_timeline
      = true := by
    have hall := List.countP_eq_zero.mp hcount0
    have hmem2 : (exhaustState σ).st.getD i defaultTState ∈ (exhaustState σ).st := by
      show (σ.st.set σ.cursor _).getD i defaultTState ∈ _
      rw [List.getD_eq_getElem _ _ hstlen2]
      exact List.getElem_mem _
    have := hall _ hmem2
    revert this
    cases ((exhaustState σ).st.getD i defaultTState).reach_end_of_media_timeline <;> simp
  refine ⟨hdrained, ?_⟩
  by_cases hic : σ.cursor = i
  · subst hic
    show ((σ.st.set σ.cursor _).getD σ.cursor defaultTState).current_sample_number = _
    rw [getD_set_self σ.st hstlen]
    show (σ.st.getD σ.cursor defaultTState).current_sample_number = _
    have h1 := h.cur_le σ.cursor hi
    omega
  · show ((σ.st.set σ.cursor _).getD i defaultTState).current_sample_number = _
    rw [getD_set_ne σ.st hic]
    apply h.drained_cur i hi
    have hd := hdrained
    rw [show (exhaustState σ).st = σ.st.set σ.cursor
        ⟨(σ.st.getD σ.cursor defaultTState).current_sample_number, true⟩ from rfl] at hd
    rw [getD_set_ne σ.st hic] at hd
    exact hd

/-- Invariant props propagate to the final state of a completed run. -/
theorem frunAux_halt_props (cfg : List Track) :
    ∀ fuel σ acc trs σf, SInv cfg σ →
    frunAux cfg fuel σ acc = some (trs, σf) →
    σf.num_active_input_tracks = 0
    ∧ σf.st.length = cfg.length
    ∧ ∀ i, i < cfg.length →
        (σf.st.getD i defaultTState).reach_end_of_media_timeline = true
        ∧ (σf.st.getD i defaultTState).current_sample_number
          = (cfg.getD i defaultTrack).dts.length + 1 := by
  intro fuel
  induction fuel with
  | zero =>
    intro σ acc trs σf _ hres
    rw [frunAux] at hres
    cases hres
  | succ fu ih =>
    intro σ acc trs σf hinv hres
    rw [frunAux] at hres
    cases hstep : fstep cfg σ with
    | halt final =>
      rw [hstep] at hres
      simp only [Option.some.injEq, Prod.mk.injEq] at hres
      obtain ⟨h1, h2⟩ := hres
      subst h2
      exact fstep_halt_final hinv hstep
    | go next ev =>
      rw [hstep] at hres
      exact ih next (acc ++ ev.toList) trs σf (sinv_step hinv hstep) hres

/-! ### Reachability, watermark monotonicity, transfer log -/

/-- One continuing scheduler iteration. -/
def FStepsTo (cfg : List Track) (a b : FState) : Prop :=
  ∃ ev, fstep cfg a = .go b ev

/-- Reachability along continuing iterations. -/
def FReach (cfg : List Track) : FState → FState → Prop :=
  Relation.ReflTransGen (FStepsTo cfg)

theorem sinv_reach {cfg : List Track} {σ : FState} (hn : 0 < cfg.length)
    (h : FReach cfg (initF cfg) σ) : SInv cfg σ := by
  induction h with
  | refl => exact sinv_init cfg hn
  | tail h1 h2 ih =>
    obtain ⟨ev, hst⟩ := h2
    exact sinv_step ih hst

theorem largest_dts_step_mono {cfg : List Track} {σ σ2 : FState} {ev : Option Transfer}
    (hs : fstep cfg σ = .go σ2 ev) : σ.largest_dts ≤ σ2.largest_dts := by
  rcases fstep_spec cfg σ with ⟨hst, he⟩ | ⟨hst, hz, he⟩ | ⟨hst, hz, he⟩ | ⟨hst, he⟩
    | ⟨hst, hz, he⟩ <;> rw [he] at hs
  · injection hs with h1 h2
    subst h1
    exact le_refl _
  · cases hs
  · injection hs with h1 h2
    subst h1
    exact le_refl _
  · injection hs with h1 h2
    subst h1
    exact le_max_left _ _
  · injection hs with h1 h2
    subst h1
    exact le_refl _

/-- On a transfer, the watermark is updated to the maximum of its old value
and the transferred sample's timestamp in seconds. -/
theorem largest_dts_update {cfg : List Track} {σ σ2 : FState} {ev : Transfer}
    (hs : fstep cfg σ = .go σ2 (some ev)) :
    σ2.largest_dts
      = max σ.largest_dts (secs ev.dts (cfg.getD ev.track defaultTrack).timescale) := by
  rcases fstep_spec cfg σ with ⟨hst, he⟩ | ⟨hst, hz, he⟩ | ⟨hst, hz, he⟩ | ⟨hst, he⟩
    | ⟨hst, hz, he⟩ <;> rw [he] at hs
  · injection hs with h1 h2
    cases h2
  · cases hs
  · injection hs with h1 h2
    cases h2
  · injection hs with h1 h2
    injection h2 with h3
    subst h1
    rw [← h3]
    rfl
  · injection hs with h1 h2
    cases h2

theorem largest_dts_mono_reach {cfg : List Track} {σ σ2 : FState}
    (h : FReach cfg σ σ2) : σ.largest_dts ≤ σ2.largest_dts := by
  induction h with
  | refl => exact le_refl _
  | tail h1 h2 ih =>
    obtain ⟨ev, hst⟩ := h2
    exact le_trans ih (largest_dts_step_mono hst)

/-- The transfer-log invariant: the samples recorded so far for flat track
`i` are exactly `1, 2, …, current_sample_number − 1`, in order. -/
def logOK (cfg : List Track) (st : List TState) (acc : List Transfer) : Prop :=
  ∀ i, i < cfg.length →
    ((acc.filter fun e => e.track = i).map fun e => e.sample)
      = List.range' 1 ((st.getD i defaultTState).current_sample_number - 1)

theorem logOK_init (cfg : List Track) : logOK cfg (initF cfg).st [] := by
  intro i hi
  show ([] : List ℕ) = List.range' 1
    (((cfg.map fun _ => defaultTState).getD i defaultTState).current_sample_number - 1)
  rw [getD_map_const cfg defaultTState hi]
  rfl

theorem logOK_step {cfg : List Track} {σ σ2 : FState} {ev : Option Transfer}
    {acc : List Transfer} (h : SInv cfg σ) (hs : fstep cfg σ = .go σ2 ev)
    (hlog : logOK cfg σ.st acc) : logOK cfg σ2.st (acc ++ ev.toList) := by
  have hstlen : σ.cursor < σ.st.length := by rw [h.len_eq]; exact h.cursor_lt
  rcases fstep_spec cfg σ with ⟨hst, he⟩ | ⟨hst, hz, he⟩ | ⟨hst, hz, he⟩ | ⟨hst, he⟩
    | ⟨hst, hz, he⟩ <;> rw [he] at hs
  · injection hs with h1 h2
    subst h1
    subst h2
    intro i hi
    simp only [Option.toList]
    rw [List.append_nil]
    exact hlog i hi
  · cases hs
  · injection hs with h1 h2
    subst h1
    subst h2
    intro i hi
    simp only [Option.toList]
    rw [List.append_nil]
    by_cases hic : σ.cursor = i
    · subst hic
      show _ = List.range' 1 (((σ.st.set σ.cursor _).getD σ.cursor
          defaultTState).current_sample_number - 1)
      rw [getD_set_self σ.st hstlen]
      exact hlog σ.cursor hi
    · show _ = List.range' 1 (((σ.st.set σ.cursor _).getD i
          defaultTState).current_sample_number - 1)
      rw [getD_set_ne σ.st hic]
      exact hlog i hi
  · injection hs with h1 h2
    subst h1
    subst h2
    intro i hi
    simp only [Option.toList]
    rw [List.filter_append, List.map_append]
    by_cases hic : σ.cursor = i
    · subst hic
      have he1 : (([transferEv cfg σ] : List Transfer).filter
          fun e => e.track = σ.cursor) = [transferEv cfg σ] := by
        simp [transferEv]
      rw [he1, hlog σ.cursor hi]
      show _ = List.range' 1 (((σ.st.set σ.cursor _).getD σ.cursor
          defaultTState).current_sample_number - 1)
      rw [getD_set_self σ.st hstlen]
      show List.range' 1 ((σ.st.getD σ.cursor defaultTState).current_sample_number - 1)
          ++ [(σ.st.getD σ.cursor defaultTState).current_sample_number]
        = List.range' 1 ((σ.st.getD σ.cursor defaultTState).current_sample_number + 1 - 1)
      have hge := h.cur_ge σ.cursor hi
      rw [Nat.add_sub_cancel]
      conv_rhs => rw [show (σ.st.getD σ.cursor defaultTState).current_sample_number
        = ((σ.st.getD σ.cursor defaultTState).current_sample_number - 1) + 1 by omega]
      rw [List.range'_concat]
      congr 2
      omega
    · have he1 : (([transferEv cfg σ] : List Transfer).filter fun e => e.track = i)
          = [] := by
        simp [transferEv]
        intro hcontra
        exact absurd hcontra hic
      rw [he1, List.map_nil, List.append_nil]
      show _ = List.range' 1 (((σ.st.set σ.cursor _).getD i
          defaultTState).current_sample_number - 1)
      rw [getD_set_ne σ.st hic]
      exact hlog i hi
  · injection hs with h1 h2
    subst h1
    subst h2
    intro i hi
    simp only [Option.toList]
    rw [List.append_nil]
    exact hlog i hi

/-- On a halting step the per-track states keep their sample cursors. -/
theorem logOK_halt {cfg : List Track} {σ σf : FState} {acc : List Transfer}
    (h : SInv cfg σ) (hs : fstep cfg σ = .halt σf) (hlog : logOK cfg σ.st acc) :
    logOK cfg σf.st acc := by
  have hstlen : σ.cursor < σ.st.length := by rw [h.len_eq]; exact h.cursor_lt
  rcases fstep_spec cfg σ with ⟨hst, he⟩ | ⟨hst, hz, he⟩ | ⟨hst, hz, he⟩ | ⟨hst, he⟩
    | ⟨hst, hz, he⟩ <;> rw [he] at hs <;> try cases hs
  intro i hi
  by_cases hic : σ.cursor = i
  · subst hic
    show _ = List.range' 1 (((σ.st.set σ.cursor _).getD σ.cursor
        defaultTState).current_sample_number - 1)
    rw [getD_set_self σ.st hstlen]
    exact hlog σ.cursor hi
  · show _ = List.range' 1 (((σ.st.set σ.cursor _).getD i
        defaultTState).current_sample_number - 1)
    rw [getD_set_ne σ.st hic]
    exact hlog i hi

theorem frunAux_logOK (cfg : List Track) :
    ∀ fuel σ acc trs σf, SInv cfg σ → logOK cfg σ.st acc →
    frunAux cfg fuel σ acc = some (trs, σf) → logOK cfg σf.st trs := by
  intro fuel
  induction fuel with
  | zero =>
    intro σ acc trs σf _ _ hres
    rw [frunAux] at hres
    cases hres
  | succ fu ih =>
    intro σ acc trs σf hinv hlog hres
    rw [frunAux] at hres
    cases hstep : fstep cfg σ with
    | halt final =>
      rw [hstep] at hres
      simp only [Option.some.injEq, Prod.mk.injEq] at hres
      obtain ⟨h1, h2⟩ := hres
      subst h1
      subst h2
      exact logOK_halt hinv hstep hlog
    | go next ev =>
      rw [hstep] at hres
      exact ih next (acc ++ ev.toList) trs σf (sinv_step hinv hstep)
        (logOK_step hinv hstep hlog) hres

/-! ### Claim theorems for the scheduler (C1 - C5) -/

/-- Claim C1, counterexample: on two sources with one track each, lengths 3
and 2, equal timescales and decode timestamps `[0,1,2]` and `[0,2]`, the
scheduler does NOT produce the claimed order
(S1,1)@0, (S2,1)@0, (S1,2)@1, (S1,3)@2, (S2,2)@2: the produced sequence
differs (its last two transfers are swapped). -/
theorem claim_C1_counterexample :
    (nrun cfgC1 20).map Prod.fst
      ≠ some [⟨1, 1, 1, 0⟩, ⟨2, 1, 1, 0⟩, ⟨1, 1, 2, 1⟩, ⟨1, 1, 3, 2⟩, ⟨2, 1, 2, 2⟩] := by
  decide

/-- Claim C1, amended: on the same scenario the sequence of transfers is
exactly (S1,1)@0, (S2,1)@0, (S1,2)@1, (S2,2)@2, (S1,3)@2 in that order
(the escape valve fires for (S1,2) and again for (S2,2), which is
transferred before (S1,3)). -/
theorem claim_C1 :
    (nrun cfgC1 20).map Prod.fst
      = some [⟨1, 1, 1, 0⟩, ⟨2, 1, 1, 0⟩, ⟨1, 1, 2, 1⟩, ⟨2, 1, 2, 2⟩, ⟨1, 1, 3, 2⟩] := by
  decide

/-- Sanity check: the flattened scheduler agrees with the nested one on the
C1 scenario (flat track 0 is source 1's track, flat track 1 source 2's). -/
example :
    (frun [⟨[0, 1, 2], 1⟩, ⟨[0, 2], 1⟩] 20).map Prod.fst
      = some [⟨0, 1, 0⟩, ⟨1, 1, 0⟩, ⟨0, 2, 1⟩, ⟨1, 2, 2⟩, ⟨0, 3, 2⟩] := by
  decide

/-- Claim C2: for every finite combination of per-track sample counts
(including tracks of length 0) and every assignment of decode timestamps
and positive timescales, the scheduler loop terminates, and its only
successful exit is the state in which the count of active tracks has
reached 0 (equivalently: every track has reached the end of its media
timeline). -/
theorem claim_C2 (cfg : List Track) (hn : 0 < cfg.length)
    (hts : ∀ tr ∈ cfg, 0 < tr.timescale) :
    ∃ fuel trs σf, frun cfg fuel = some (trs, σf)
      ∧ σf.num_active_input_tracks = 0
      ∧ ∀ i, i < cfg.length →
          (σf.st.getD i defaultTState).reach_end_of_media_timeline = true := by
  obtain ⟨trs, σf, hres⟩ := frunAux_halts cfg (mu cfg (initF cfg) + 1) (initF cfg) []
    (sinv_init cfg hn) (Nat.lt_succ_self _)
  have hprops := frunAux_halt_props cfg _ _ _ _ _ (sinv_init cfg hn) hres
  exact ⟨_, trs, σf, hres, hprops.1, fun i hi => (hprops.2.2 i hi).1⟩

theorem claim_C2_witness :
    ∃ fuel trs σf, frun [⟨[0, 1, 2], 1⟩, ⟨[0, 2], 1⟩] fuel = some (trs, σf)
      ∧ σf.num_active_input_tracks = 0
      ∧ ∀ i, i < ([⟨[0, 1, 2], 1⟩, ⟨[0, 2], 1⟩] : List Track).length →
          (σf.st.getD i defaultTState).reach_end_of_media_timeline = true :=
  claim_C2 [⟨[0, 1, 2], 1⟩, ⟨[0, 2], 1⟩] (by decide) (by decide)

/-- Claim C3: throughout any scheduler run (that is, in every state
reachable from the initial state), the consecutive-skip counter never
exceeds the current number of active tracks. -/
theorem claim_C3 (cfg : List Track) (σ : FState) (hn : 0 < cfg.length)
    (h : FReach cfg (initF cfg) σ) :
    σ.num_consecutive_sample_skip ≤ σ.num_active_input_tracks :=
  sinv_skips_le_active (sinv_reach hn h)

theorem claim_C3_witness :
    (initF [⟨[0], 1⟩]).num_consecutive_sample_skip
      ≤ (initF [⟨[0], 1⟩]).num_active_input_tracks :=
  claim_C3 [⟨[0], 1⟩] (initF [⟨[0], 1⟩]) (by decide) Relation.ReflTransGen.refl

/-- Reachability together with the transfer log accumulated so far. -/
def FReachLog (cfg : List Track) :
    (FState × List Transfer) → (FState × List Transfer) → Prop :=
  Relation.ReflTransGen fun a b =>
    ∃ ev, fstep cfg a.1 = .go b.1 ev ∧ b.2 = a.2 ++ ev.toList

theorem sinv_logOK_reachLog (cfg : List Track) (hn : 0 < cfg.length) :
    ∀ p, FReachLog cfg (initF cfg, []) p → SInv cfg p.1 ∧ logOK cfg p.1.st p.2 := by
  intro p h
  induction h with
  | refl => exact ⟨sinv_init cfg hn, logOK_init cfg⟩
  | tail h1 h2 ih =>
    obtain ⟨ev, hst, hacc⟩ := h2
    refine ⟨sinv_step ih.1 hst, ?_⟩
    rw [hacc]
    exact logOK_step ih.1 hst ih.2

/-- Claim C4: at every point of a run, the samples transferred so far from
flat track `i` are exactly `1, …, current_sample_number − 1` in order
(so the cursor advances only right after the sample at that index was
appended), and at the end of a completed run every track's log is exactly
`1, …, sample count` — strictly increasing, no gaps, no duplicates. -/
theorem claim_C4 (cfg : List Track) (hn : 0 < cfg.length) :
    (∀ σ acc, FReachLog cfg (initF cfg, []) (σ, acc) →
      ∀ i, i < cfg.length →
        ((acc.filter fun e => e.track = i).map fun e => e.sample)
          = List.range' 1 ((σ.st.getD i defaultTState).current_sample_number - 1))
    ∧ ∀ fuel trs σf, frun cfg fuel = some (trs, σf) →
      ∀ i, i < cfg.length →
        ((trs.filter fun e => e.track = i).map fun e => e.sample)
          = List.range' 1 (cfg.getD i defaultTrack).dts.length := by
  constructor
  · intro σ acc h i hi
    exact (sinv_logOK_reachLog cfg hn (σ, acc) h).2 i hi
  · intro fuel trs σf hres i hi
    have hlog := frunAux_logOK cfg fuel (initF cfg) [] trs σf (sinv_init cfg hn)
      (logOK_init cfg) hres
    have hprops := frunAux_halt_props cfg fuel (initF cfg) [] trs σf (sinv_init cfg hn) hres
    have h1 := hlog i hi
    rw [(hprops.2.2 i hi).2, Nat.add_sub_cancel] at h1
    exact h1

theorem claim_C4_witness :
    ((([⟨0, 1, 0⟩] : List Transfer).filter fun e => e.track = 0).map fun e => e.sample)
      = List.range' 1 (([⟨[0], 1⟩] : List Track).getD 0 defaultTrack).dts.length :=
  (claim_C4 [⟨[0], 1⟩] (by decide)).2 5 [⟨0, 1, 0⟩] ⟨[⟨2, true⟩], 0, 0, 0, 0⟩
    (by decide) 0 (by decide)

/-- Claim C5: the watermark `largest_dts` starts at 0, is updated on each
transfer to the maximum of its previous value and the transferred sample's
timestamp in seconds, and is non-decreasing along the entire run. -/
theorem claim_C5 (cfg : List Track) :
    (initF cfg).largest_dts = 0
    ∧ (∀ σ σ2 : FState, ∀ ev : Transfer, fstep cfg σ = .go σ2 (some ev) →
        σ2.largest_dts = max σ.largest_dts
          (secs ev.dts (cfg.getD ev.track defaultTrack).timescale))
    ∧ ∀ σ σ2 : FState, FReach cfg σ σ2 → σ.largest_dts ≤ σ2.largest_dts := by
  refine ⟨rfl, ?_, ?_⟩
  · intro σ σ2 ev hs
    exact largest_dts_update hs
  · intro σ σ2 h
    exact largest_dts_mono_reach h

theorem claim_C5_witness :
    (initF [⟨[0], 1⟩]).largest_dts = 0
    ∧ (fadvance 1 (transferState [⟨[0], 1⟩] (initF [⟨[0], 1⟩]))).largest_dts
        = max (initF [⟨[0], 1⟩]).largest_dts
            (secs 0 (([⟨[0], 1⟩] : List Track).getD 0 defaultTrack).timescale)
    ∧ (initF [⟨[0], 1⟩]).largest_dts ≤ (initF [⟨[0], 1⟩]).largest_dts := by
  refine ⟨(claim_C5 [⟨[0], 1⟩]).1, ?_, ?_⟩
  · exact (claim_C5 [⟨[0], 1⟩]).2.1 (initF [⟨[0], 1⟩])
      (fadvance 1 (transferState [⟨[0], 1⟩] (initF [⟨[0], 1⟩]))) ⟨0, 1, 0⟩ (by decide)
  · exact (claim_C5 [⟨[0], 1⟩]).2.2 (initF [⟨[0], 1⟩]) (initF [⟨[0], 1⟩])
      Relation.ReflTransGen.refl

/-! ### Brand selection (set_movie_parameters, remuxer.c lines 162-229)

Brands and minor versions are modelled as natural numbers (`lsmash_brand_type`
is a four-character-code enumeration; 0 is the null brand). -/

/-- First occurrences in order, relative to an accumulator of already-seen
elements. Written with a structural accumulator so that concrete instances
evaluate by kernel reduction. -/
def firstDedupAux {α : Type} [DecidableEq α] : List α → List α → List α
  | _, [] => []
  | seen, a :: l =>
    if a ∈ seen then firstDedupAux seen l
    else a :: firstDedupAux (seen ++ [a]) l

/-- Duplicates removed, first-seen order preserved (the spec's wording for
the compatible-brand union). -/
def firstDedup {α : Type} [DecidableEq α] (l : List α) : List α :=
  firstDedupAux [] l

/-- The compatible-brand output loop (remuxer.c lines 212-226): `out` is
the output array built so far; a null (zero) brand is skipped (line 215);
a brand equal to an already-emitted one is dropped (lines 218-224). -/
def dedupBrands : List ℕ → List ℕ → List ℕ
  | out, [] => out
  | out, b :: rest =>
    if b = 0 then dedupBrands out rest
    else if b ∈ out then dedupBrands out rest
    else dedupBrands (out ++ [b]) rest

theorem dedupBrands_eq_firstDedupAux :
    ∀ (l out : List ℕ), dedupBrands out l = out ++ firstDedupAux out (l.filter fun b => b ≠ 0) := by
  intro l
  induction l with
  | nil => intro out; simp [dedupBrands, firstDedupAux]
  | cons b rest ih =>
    intro out
    by_cases hb0 : b = 0
    · subst hb0
      rw [dedupBrands, if_pos rfl, ih out]
      simp
    · have hfil : ((b :: rest).filter fun x => x ≠ 0) = b :: (rest.filter fun x => x ≠ 0) := by
        simp [hb0]
      rw [hfil]
      by_cases hmem : b ∈ out
      · rw [dedupBrands, if_neg hb0, if_pos hmem, ih out]
        congr 1
        rw [firstDedupAux, if_pos hmem]
      · rw [dedupBrands, if_neg hb0, if_neg hmem, ih (out ++ [b])]
        rw [firstDedupAux, if_neg hmem]
        simp

/-- Claim C7, counterexample: a source whose compatible-brand list holds
the null brand 0. The spec's union-with-duplicates-removed keeps it, the
code drops it. -/
theorem claim_C7_counterexample :
    dedupBrands [] ([[0]] : List (List ℕ)).flatten
      ≠ firstDedup ([[0]] : List (List ℕ)).flatten := by
  decide

/-- Claim C7, amended: the output compatible-brand set equals the union of
all sources' compatible-brand tags with null (zero) brands dropped and
exact duplicates removed, first-seen order preserved over the
concatenation of the sources in source order; in particular sources with
brand sets {1,2} and {2,3} produce exactly [1,2,3]. -/
theorem claim_C7 :
    (∀ sources : List (List ℕ),
      dedupBrands [] sources.flatten
        = firstDedup (sources.flatten.filter fun b => b ≠ 0))
    ∧ dedupBrands [] ([[1, 2], [2, 3]] : List (List ℕ)).flatten = [1, 2, 3] := by
  constructor
  · intro sources
    rw [dedupBrands_eq_firstDedupAux]
    rfl
  · decide

/-! ### Major-brand selection (remuxer.c lines 168-201) -/

/-- The inner scan of the major-brand grouping (remuxer.c lines 178-191):
walk the whole pair list with ascending index `j`; a match strictly before
`i` removes the tentative entry (the C zeroes the count, rolls
`num_major_brand` back and breaks), a match at or after `i` adds one to
the running count. -/
def majorCount (p : ℕ × ℕ) (i : ℕ) : ℕ → List (ℕ × ℕ) → Option ℕ
  | _, [] => some 0
  | j, q :: rest =>
    if q = p then
      if i ≤ j then (majorCount p i (j + 1) rest).map (· + 1)
      else none
    else majorCount p i (j + 1) rest

/-- Surviving group entries in first-occurrence order with their counts
(remuxer.c lines 168-193). -/
def buildGroups (pairs : List (ℕ × ℕ)) : List ((ℕ × ℕ) × ℕ) :=
  (List.range pairs.length).filterMap fun i =>
    (majorCount (pairs.getD i (0, 0)) i 0 pairs).map fun c => (pairs.getD i (0, 0), c)

/-- The selection loop (remuxer.c lines 194-201): strict improvement over
`most_used_count`, which starts at 0; `none` models the output movie
parameters keeping their initialized default brand. -/
def selectMajor (pairs : List (ℕ × ℕ)) : Option (ℕ × ℕ) :=
  ((buildGroups pairs).foldl
    (fun acc g => if acc.2 < g.2 then (some g.1, g.2) else acc)
    ((none : Option (ℕ × ℕ)), 0)).1

/-- Modelled on the spec's words: group the sources by identical
(primary-brand, minor-version) pair — the distinct pairs in first-seen
order, each counted over the whole list — and pick the first group whose
membership count attains the maximum. -/
def specSelectMajor (pairs : List (ℕ × ℕ)) : Option (ℕ × ℕ) :=
  (firstDedup pairs).find? fun p =>
    pairs.count p = (((firstDedup pairs).map fun q => pairs.count q).foldl max 0)

theorem majorCount_shift (p : ℕ × ℕ) :
    ∀ (l : List (ℕ × ℕ)) (i j : ℕ), majorCount p (i + 1) (j + 1) l = majorCount p i j l := by
  intro l
  induction l with
  | nil => intro i j; rfl
  | cons q rest ih =>
    intro i j
    simp only [majorCount]
    by_cases hq : q = p
    · rw [if_pos hq, if_pos hq]
      by_cases hij : i ≤ j
      · rw [if_pos (show i + 1 ≤ j + 1 by omega), if_pos hij, ih i (j + 1)]
      · rw [if_neg (show ¬ i + 1 ≤ j + 1 by omega), if_neg hij]
    · rw [if_neg hq, if_neg hq, ih i (j + 1)]

theorem majorCount_ge (p : ℕ × ℕ) :
    ∀ (l : List (ℕ × ℕ)) (i j : ℕ), i ≤ j → majorCount p i j l = some (l.count p) := by
  intro l
  induction l with
  | nil => intro i j _; rfl
  | cons q rest ih =>
    intro i j hij
    simp only [majorCount]
    by_cases hq : q = p
    · rw [if_pos hq, if_pos hij, ih i (j + 1) (by omega)]
      subst hq
      rw [List.count_cons_self]
      rfl
    · rw [if_neg hq, ih i (j + 1) (by omega),
        List.count_cons_of_ne (fun he => hq he.symm)]

theorem firstDedupAux_congr {α : Type} [DecidableEq α] :
    ∀ (l s1 s2 : List α), (∀ x, x ∈ s1 ↔ x ∈ s2) →
    firstDedupAux s1 l = firstDedupAux s2 l := by
  intro l
  induction l with
  | nil => intro s1 s2 _; rfl
  | cons a rest ih =>
    intro s1 s2 h
    simp only [firstDedupAux]
    by_cases ha : a ∈ s1
    · rw [if_pos ha, if_pos ((h a).mp ha)]
      exact ih s1 s2 h
    · rw [if_neg ha, if_neg (fun hc => ha ((h a).mpr hc))]
      congr 1
      apply ih
      intro x
      simp only [List.mem_append, List.mem_singleton]
      rw [h x]

theorem not_mem_firstDedupAux {α : Type} [DecidableEq α] :
    ∀ (l seen : List α) (a : α), a ∈ seen → a ∉ firstDedupAux seen l := by
  intro l
  induction l with
  | nil => intro seen a _; simp [firstDedupAux]
  | cons b rest ih =>
    intro seen a ha
    simp only [firstDedupAux]
    by_cases hb : b ∈ seen
    · rw [if_pos hb]
      exact ih seen a ha
    · rw [if_neg hb]
      intro hmem
      rcases List.mem_cons.mp hmem with h1 | h1
      · rw [h1] at ha
        exact hb ha
      · exact ih (seen ++ [b]) a (by simp [ha]) h1

theorem firstDedupAux_append_singleton {α : Type} [DecidableEq α] :
    ∀ (l seen : List α) (a : α),
    firstDedupAux (seen ++ [a]) l = (firstDedupAux seen l).filter (· ≠ a) := by
  intro l
  induction l with
  | nil => intro seen a; rfl
  | cons b rest ih =>
    intro seen a
    simp only [firstDedupAux]
    by_cases hb : b ∈ seen
    · rw [if_pos (by simp [hb]), if_pos hb]
      exact ih seen a
    · by_cases hba : b = a
      · rw [if_pos (by simp [hba]), if_neg hb, List.filter_cons,
          if_neg (by simp [hba])]
        rw [hba]
        symm
        rw [List.filter_eq_self]
        intro x hx
        have hne : x ≠ a := by
          intro hxa
          rw [hxa] at hx
          exact not_mem_firstDedupAux rest (seen ++ [a]) a (by simp) hx
        simp [hne]
      · rw [if_neg (by simp [hb, hba]), if_neg hb, List.filter_cons,
          if_pos (by simp [hba])]
        congr 1
        rw [← ih (seen ++ [b]) a]
        apply firstDedupAux_congr
        intro x
        simp only [List.mem_append, List.mem_singleton]
        tauto

theorem firstDedup_cons {α : Type} [DecidableEq α] (a : α) (l : List α) :
    firstDedup (a :: l) = a :: (firstDedup l).filter (· ≠ a) := by
  show firstDedupAux [] (a :: l) = _
  simp only [firstDedupAux]
  rw [if_neg (List.not_mem_nil a)]
  congr 1
  have h1 := firstDedupAux_append_singleton l [] a
  simpa using h1

theorem buildGroups_cons (p : ℕ × ℕ) (rest : List (ℕ × ℕ)) :
    buildGroups (p :: rest)
      = (p, rest.count p + 1) :: ((buildGroups rest).filter fun g => g.1 ≠ p) := by
  unfold buildGroups
  rw [show (p :: rest).length = rest.length + 1 from rfl, List.range_succ_eq_map]
  have hhead : (fun i => (majorCount ((p :: rest).getD i (0, 0)) i 0 (p :: rest)).map
      fun c => ((p :: rest).getD i (0, 0), c)) 0 = some (p, rest.count p + 1) := by
    show (majorCount ((p :: rest).getD 0 (0, 0)) 0 0 (p :: rest)).map _ = _
    rw [List.getD_cons_zero]
    have h2 : majorCount p 0 0 (p :: rest) = some (rest.count p + 1) := by
      show (if p = p then
          if 0 ≤ 0 then (majorCount p 0 (0 + 1) rest).map (· + 1) else none
        else majorCount p 0 (0 + 1) rest) = _
      rw [if_pos rfl, if_pos (le_refl 0), majorCount_ge p rest 0 (0 + 1) (by omega)]
      rfl
    rw [h2]
    rfl
  rw [@List.filterMap_cons_some _ _
      (fun i => (majorCount ((p :: rest).getD i (0, 0)) i 0 (p :: rest)).map
        fun c => ((p :: rest).getD i (0, 0), c))
      0 (List.map Nat.succ (List.range rest.length)) (p, rest.count p + 1) hhead,
    List.filterMap_map]
  congr 1
  rw [List.filter_filterMap]
  apply List.filterMap_congr
  intro i hi
  show (majorCount ((p :: rest).getD (i + 1) (0, 0)) (i + 1) 0 (p :: rest)).map
      (fun c => ((p :: rest).getD (i + 1) (0, 0), c))
    = Option.filter (fun g => g.1 ≠ p)
        ((majorCount (rest.getD i (0, 0)) i 0 rest).map fun c => (rest.getD i (0, 0), c))
  rw [List.getD_cons_succ]
  set q := rest.getD i (0, 0) with hq
  by_cases hpq : p = q
  · -- the pair already occurred at the head: the entry is removed on the
    -- left and filtered out on the right
    have h1 : majorCount q (i + 1) 0 (p :: rest) = none := by
      simp only [majorCount]
      rw [if_pos hpq, if_neg (by omega)]
    rw [h1]
    cases h2 : majorCount q i 0 rest with
    | none => rfl
    | some c =>
      rw [Option.map_some', Option.filter_some, if_neg (by simp [hpq])]
      rfl
  · have h1 : majorCount q (i + 1) 0 (p :: rest) = majorCount q i 0 rest := by
      simp only [majorCount]
      rw [if_neg hpq]
      exact majorCount_shift q rest i 0
    rw [h1]
    cases h2 : majorCount q i 0 rest with
    | none => rfl
    | some c =>
      rw [Option.map_some', Option.filter_some,
        if_pos (by simp; exact fun he => hpq he.symm)]

/-- The surviving group entries are exactly the distinct pairs in
first-occurrence order, each with its occurrence count. -/
theorem buildGroups_eq (pairs : List (ℕ × ℕ)) :
    buildGroups pairs = (firstDedup pairs).map fun p => (p, pairs.count p) := by
  induction pairs with
  | nil => rfl
  | cons p rest ih =>
    rw [buildGroups_cons, firstDedup_cons, ih, List.filter_map, List.map_cons,
      List.count_cons_self]
    congr 1
    · rw [List.filter_congr]
      · rw [List.map_congr_left]
        intro x hx
        have hxp : x ≠ p := by
          have := List.of_mem_filter hx
          simpa using this
        rw [List.count_cons_of_ne hxp]
      · intro x _
        rfl

/-- The initial value never exceeds a left fold of `max`. -/
theorem init_le_foldl_max : ∀ (l : List ℕ) (m : ℕ), m ≤ l.foldl max m := by
  intro l
  induction l with
  | nil => intro m; exact le_refl m
  | cons k l ih =>
    intro m
    exact le_trans (le_max_left m k) (ih (max m k))

/-- Every member of the list is bounded by the left fold of `max`. -/
theorem mem_le_foldl_max : ∀ (l : List ℕ) (m x : ℕ), x ∈ l → x ≤ l.foldl max m := by
  intro l
  induction l with
  | nil => intro m x hx; simp at hx
  | cons k l ih =>
    intro m x hx
    show x ≤ l.foldl max (max m k)
    rcases List.mem_cons.mp hx with h | h
    · subst h
      exact le_trans (le_max_right m x) (init_le_foldl_max l (max m x))
    · exact ih (max m k) x h

/-- `firstDedupAux` only produces members of its input list. -/
theorem mem_of_mem_firstDedupAux {α : Type} [DecidableEq α] :
    ∀ (l seen : List α) (x : α), x ∈ firstDedupAux seen l → x ∈ l := by
  intro l
  induction l with
  | nil => intro seen x hx; simp [firstDedupAux] at hx
  | cons a l ih =>
    intro seen x hx
    simp only [firstDedupAux] at hx
    by_cases hmem : a ∈ seen
    · rw [if_pos hmem] at hx
      exact List.mem_cons_of_mem a (ih seen x hx)
    · rw [if_neg hmem] at hx
      rcases List.mem_cons.mp hx with h | h
      · exact h ▸ List.mem_cons_self a l
      · exact List.mem_cons_of_mem a (ih (seen ++ [a]) x h)

/-- `find?` only depends on the predicate's values on the list. -/
theorem find_congr_mem {α : Type} (p q : α → Bool) :
    ∀ (l : List α), (∀ x ∈ l, p x = q x) → l.find? p = l.find? q := by
  intro l
  induction l with
  | nil => intro _; rfl
  | cons a l ih =>
    intro h
    cases hq : q a with
    | true =>
      rw [List.find?_cons_of_pos l (by rw [h a (List.mem_cons_self a l)]; exact hq),
        List.find?_cons_of_pos l hq]
    | false =>
      rw [List.find?_cons_of_neg l (by rw [h a (List.mem_cons_self a l)]; simp [hq]),
        List.find?_cons_of_neg l (by simp [hq])]
      exact ih fun x hx => h x (List.mem_cons_of_mem a hx)

/-- The strict-improvement selection fold (remuxer.c lines 194-201), run over
entries tagged with their counts, returns the first entry whose count attains
the maximum count, or the initial value when nothing beats the initial
threshold. -/
theorem select_foldl (c : ℕ × ℕ → ℕ) :
    ∀ (ps : List (ℕ × ℕ)) (b : Option (ℕ × ℕ)) (m : ℕ),
      ((ps.map fun p => (p, c p)).foldl
          (fun acc g => if acc.2 < g.2 then (some g.1, g.2) else acc) (b, m)).1
        = if (ps.map c).foldl max m = m then b
          else ps.find? fun p => decide ((ps.map c).foldl max m ≤ c p) := by
  intro ps
  induction ps with
  | nil => intro b m; simp
  | cons p ps ih =>
    intro b m
    rw [List.map_cons, List.foldl_cons, List.map_cons, List.foldl_cons]
    have hstep : (if (b, m).2 < (p, c p).2 then (some (p, c p).1, (p, c p).2) else (b, m))
        = if m < c p then (some p, c p) else (b, m) := rfl
    rw [hstep]
    by_cases hcp : m < c p
    · have hmax : max m (c p) = c p := max_eq_right (le_of_lt hcp)
      rw [if_pos hcp, ih (some p) (c p), hmax]
      have hge : c p ≤ (ps.map c).foldl max (c p) := init_le_foldl_max (ps.map c) (c p)
      by_cases hMeq : (ps.map c).foldl max (c p) = c p
      · rw [if_pos hMeq, if_neg (by omega),
          List.find?_cons_of_pos ps (decide_eq_true hMeq.le)]
      · rw [if_neg hMeq, if_neg (by omega),
          List.find?_cons_of_neg ps (by simp; omega)]
    · have hmax : max m (c p) = m := max_eq_left (not_lt.mp hcp)
      rw [if_neg hcp, ih b m, hmax]
      have hge : m ≤ (ps.map c).foldl max m := init_le_foldl_max (ps.map c) m
      by_cases hMeq : (ps.map c).foldl max m = m
      · rw [if_pos hMeq, if_pos hMeq]
      · rw [if_neg hMeq, if_neg hMeq,
          List.find?_cons_of_neg ps (by simp; omega)]

/-- The code's grouping-and-selection pipeline agrees with the spec's
grouping description on every pair list. -/
theorem selectMajor_eq_spec (pairs : List (ℕ × ℕ)) :
    selectMajor pairs = specSelectMajor pairs := by
  unfold selectMajor specSelectMajor
  rw [buildGroups_eq, select_foldl (fun p => pairs.count p) (firstDedup pairs) none 0]
  by_cases h0 : ((firstDedup pairs).map fun p => pairs.count p).foldl max 0 = 0
  · rw [if_pos h0]
    symm
    apply List.find?_eq_none.mpr
    intro x hx
    have hmem : x ∈ pairs := mem_of_mem_firstDedupAux pairs [] x hx
    have hpos : 0 < pairs.count x := List.count_pos_iff.mpr hmem
    simp [h0]
    omega
  · rw [if_neg h0]
    apply find_congr_mem
    intro x hx
    have hle : pairs.count x ≤ ((firstDedup pairs).map fun p => pairs.count p).foldl max 0 := by
      apply mem_le_foldl_max
      exact List.mem_map.mpr ⟨x, hx, rfl⟩
    by_cases h : pairs.count x = ((firstDedup pairs).map fun p => pairs.count p).foldl max 0
    · simp [h]
    · have hnot : ¬ ((firstDedup pairs).map fun p => pairs.count p).foldl max 0 ≤ pairs.count x := by
        omega
      simp [h, hnot]

/-- C6: for every source list, the output primary brand is chosen by grouping
sources by identical (primary-brand, minor-version) pair and taking the group
with the largest membership count, ties broken in favour of the
first-encountered group in source order; in particular [(A,0) x3, (B,1) x2]
yields (A,0) and the tie [(A,0) x2, (B,0) x2] yields (A,0). -/
theorem claim_C6 :
    (∀ pairs : List (ℕ × ℕ), selectMajor pairs = specSelectMajor pairs)
    ∧ selectMajor [(1, 0), (1, 0), (1, 0), (2, 1), (2, 1)] = some (1, 0)
    ∧ selectMajor [(1, 0), (1, 0), (2, 0), (2, 0)] = some (1, 0) :=
  ⟨selectMajor_eq_spec, by decide, by decide⟩

/- ===== Track-option parsing (remuxer.c lines 238-277) ===== -/

/-- Per-track user-adjustable parameters (struct track_media_option,
remuxer.c lines 55-60): `alternate_group` is an int16_t, `ISO_language` a
uint16_t; the raw option string is handled separately. -/
structure TrackOpt where
  alternate_group : Int
  ISO_language : ℕ
  deriving DecidableEq

def defaultTrackOpt : TrackOpt := ⟨0, 0⟩

/-- The int-to-int16_t conversion at the assignment of remuxer.c line 265
(two's-complement wrap into [-2^15, 2^15)). -/
def wrap16 (v : Int) : Int := (v + 2 ^ 15) % 2 ^ 16 - 2 ^ 15

/-- The whitespace characters skipped by C atoi. -/
def isSpaceC (c : Char) : Bool :=
  c = ' ' || c = '\t' || c = '\n' || c = '\r' || c = '\x0b' || c = '\x0c'

/-- Maximal leading digit run accumulated into a number. -/
def atoiDigits : List Char → ℕ → ℕ
  | [], acc => acc
  | c :: rest, acc =>
    if c.isDigit then atoiDigits rest (acc * 10 + (c.toNat - 48)) else acc

/-- C atoi (remuxer.c lines 252 and 265): skip leading whitespace, an
optional sign, then a maximal run of digits; 0 when no digits follow. -/
def atoi (s : List Char) : Int :=
  match s.dropWhile isSpaceC with
  | '-' :: rest => -(atoiDigits rest 0 : ℤ)
  | '+' :: rest => (atoiDigits rest 0 : ℤ)
  | s1 => (atoiDigits s1 0 : ℤ)

/-- Split a character list at every occurrence of the delimiter. -/
def splitChar (d : Char) : List Char → List (List Char)
  | [] => [[]]
  | c :: rest =>
    if c = d then [] :: splitChar d rest
    else
      match splitChar d rest with
      | [] => [[c]]
      | t :: ts => (c :: t) :: ts

/-- The token sequence produced by repeated strtok calls with a
one-character delimiter set: empty tokens are skipped. -/
def strtokAll (d : Char) (s : List Char) : List (List Char) :=
  (splitChar d s).filter fun t => t ≠ []

/-- The first list is a prefix of the second. -/
def startsWith : List Char → List Char → Bool
  | [], _ => true
  | _ :: _, [] => false
  | p :: ps, c :: cs => p = c && startsWith ps cs

/-- strstr containment (remuxer.c lines 262 and 267): the first list
occurs as a contiguous substring of the second. -/
def hasSub (pat : List Char) : List Char → Bool
  | [] => startsWith pat []
  | c :: rest => startsWith pat (c :: rest) || hasSub pat rest

/-- The text after the first '=' of a token (strchr(token, '=') + 1 at
remuxer.c lines 264 and 269). -/
def afterEq (t : List Char) : List Char := (t.dropWhile fun c => c ≠ '=').drop 1

def altKey : List Char := "alternate-group=".data

def langKey : List Char := "language=".data

/-- Modelled from the spec: the language option carries a packed 3-letter
language tag; the packing is done by the external library function
lsmash_pack_iso_language, modelled as the ISO-639-2/T five-bits-per-letter
packing into a uint16_t. Only that it is some function of the text after
the '=' matters to the claims. -/
def packIsoLanguage (s : List Char) : ℕ :=
  match s with
  | c1 :: c2 :: c3 :: _ =>
    (((c1.toNat - 96) % 32) * 1024 + ((c2.toNat - 96) % 32) * 32
      + (c3.toNat - 96) % 32) % 2 ^ 16
  | _ => 0

/-- Errors raised by parse_track_option (remuxer.c lines 247-273). -/
inductive ParseErr where
  | trackNumberNotSpecified
  | multipleColons
  | invalidTrackNumber
  | multipleEquals
  | unknownOption
  deriving DecidableEq

/-- Write the alternate group of the track at the given 0-based index. -/
def setAlt (v : Int) : ℕ → List TrackOpt → List TrackOpt
  | _, [] => []
  | 0, o :: rest => { o with alternate_group := v } :: rest
  | n + 1, o :: rest => o :: setAlt v n rest

/-- Write the packed language of the track at the given 0-based index. -/
def setLang (v : ℕ) : ℕ → List TrackOpt → List TrackOpt
  | _, [] => []
  | 0, o :: rest => { o with ISO_language := v } :: rest
  | n + 1, o :: rest => o :: setLang v n rest

/-- The per-token option loop (remuxer.c lines 257-274): a token with two
or more equal signs is rejected; a token containing "alternate-group="
sets the addressed track's alternate group from the text after its first
'='; otherwise a token containing "language=" sets the packed language;
any other token is an unknown option. -/
def applyTokens (tn : ℕ) : List TrackOpt → List (List Char) → Except ParseErr (List TrackOpt)
  | opts, [] => .ok opts
  | opts, t :: ts =>
    if 2 ≤ t.count '=' then .error .multipleEquals
    else if hasSub altKey t then
      applyTokens tn (setAlt (wrap16 (atoi (afterEq t))) (tn - 1) opts) ts
    else if hasSub langKey t then
      applyTokens tn (setLang (packIsoLanguage (afterEq t)) (tn - 1) opts) ts
    else .error .unknownOption

/-- parse_track_option's handling of one raw track-option string
(remuxer.c lines 247-274): missing or leading colon, multiple colons,
track number parsed by atoi from the text before the colon (converted to
uint32_t), zero or out-of-range track numbers rejected, then the comma
token loop over the text after the colon. -/
def parseTrackOption (numTracks : ℕ) (opts : List TrackOpt) (s : List Char) :
    Except ParseErr (List TrackOpt) :=
  if s.count ':' = 0 ∨ s.head? = some ':' then .error .trackNumberNotSpecified
  else if 2 ≤ s.count ':' then .error .multipleColons
  else if ((atoi (s.takeWhile fun c => c ≠ ':')) % 2 ^ 32).toNat = 0 then
    .error .invalidTrackNumber
  else if numTracks < ((atoi (s.takeWhile fun c => c ≠ ':')) % 2 ^ 32).toNat then
    .error .invalidTrackNumber
  else
    applyTokens ((atoi (s.takeWhile fun c => c ≠ ':')) % 2 ^ 32).toNat opts
      (strtokAll ',' ((s.dropWhile fun c => c ≠ ':').drop 1))

/-- The outer loop of parse_track_option (remuxer.c lines 241-245): raw
option strings of one input processed in order, the first error aborting
the whole parse. -/
def parseTrackOptions (numTracks : ℕ) : List TrackOpt → List (List Char) → Except ParseErr (List TrackOpt)
  | opts, [] => .ok opts
  | opts, s :: ss =>
    match parseTrackOption numTracks opts s with
    | .error e => .error e
    | .ok opts2 => parseTrackOptions numTracks opts2 ss

/-- Which error the token loop raises depends only on the tokens, never on
the option state being updated. -/
theorem applyTokens_error_indep (tn : ℕ) :
    ∀ (ts : List (List Char)) (opts opts2 : List TrackOpt) (e : ParseErr),
      applyTokens tn opts ts = .error e → applyTokens tn opts2 ts = .error e := by
  intro ts
  induction ts with
  | nil => intro opts opts2 e h; simp [applyTokens] at h
  | cons t ts ih =>
    intro opts opts2 e h
    simp only [applyTokens] at h ⊢
    by_cases h1 : 2 ≤ t.count '='
    · rw [if_pos h1] at h ⊢; exact h
    · rw [if_neg h1] at h ⊢
      by_cases h2 : hasSub altKey t = true
      · rw [if_pos h2] at h ⊢; exact ih _ _ e h
      · rw [if_neg h2] at h ⊢
        by_cases h3 : hasSub langKey t = true
        · rw [if_pos h3] at h ⊢; exact ih _ _ e h
        · rw [if_neg h3] at h ⊢; exact h

/-- Which error a raw track-option string raises depends only on the
string and the track count, never on the option state. -/
theorem parseTrackOption_error_indep (n : ℕ) (s : List Char)
    (opts opts2 : List TrackOpt) (e : ParseErr)
    (h : parseTrackOption n opts s = .error e) :
    parseTrackOption n opts2 s = .error e := by
  unfold parseTrackOption at h ⊢
  by_cases h1 : s.count ':' = 0 ∨ s.head? = some ':'
  · rw [if_pos h1] at h ⊢; exact h
  · rw [if_neg h1] at h ⊢
    by_cases h2 : 2 ≤ s.count ':'
    · rw [if_pos h2] at h ⊢; exact h
    · rw [if_neg h2] at h ⊢
      by_cases h3 : ((atoi (s.takeWhile fun c => c ≠ ':')) % 2 ^ 32).toNat = 0
      · rw [if_pos h3] at h ⊢; exact h
      · rw [if_neg h3] at h ⊢
        by_cases h4 : n < ((atoi (s.takeWhile fun c => c ≠ ':')) % 2 ^ 32).toNat
        · rw [if_pos h4] at h ⊢; exact h
        · rw [if_neg h4] at h ⊢
          exact applyTokens_error_indep _ _ opts opts2 e h

/-- A failing raw option string anywhere in the list makes the whole
parse fail. -/
theorem parseTrackOptions_abort (n : ℕ) :
    ∀ (ss : List (List Char)) (opts : List TrackOpt) (s : List Char) (e : ParseErr),
      s ∈ ss → parseTrackOption n opts s = .error e →
      ∃ e2, parseTrackOptions n opts ss = .error e2 := by
  intro ss
  induction ss with
  | nil => intro opts s e hmem _; simp at hmem
  | cons s1 ss ih =>
    intro opts s e hmem herr
    simp only [parseTrackOptions]
    cases hp : parseTrackOption n opts s1 with
    | error e1 => exact ⟨e1, rfl⟩
    | ok opts2 =>
      rcases List.mem_cons.mp hmem with heq | hmem2
      · subst heq
        rw [herr] at hp
        simp at hp
      · exact ih opts2 s e hmem2 (parseTrackOption_error_indep n s opts opts2 e herr)

/-- C8: on a 3-track source, "2:alternate-group=1" sets track 2's
alternate group to 1 and leaves tracks 1 and 3 (and track 2's language)
untouched; "5:language=jpn" fails with an invalid-track-number error;
"2:foo=1" fails with an unknown-option error; "2::x=1" fails with a
multiple-colon error; and a parse error on any raw option string aborts
the whole parse. -/
theorem claim_C8 :
    (∀ d1 d2 d3 : TrackOpt,
      parseTrackOption 3 [d1, d2, d3] "2:alternate-group=1".data
        = Except.ok [d1, { d2 with alternate_group := 1 }, d3])
    ∧ parseTrackOption 3 [defaultTrackOpt, defaultTrackOpt, defaultTrackOpt]
        "5:language=jpn".data = Except.error ParseErr.invalidTrackNumber
    ∧ parseTrackOption 3 [defaultTrackOpt, defaultTrackOpt, defaultTrackOpt]
        "2:foo=1".data = Except.error ParseErr.unknownOption
    ∧ parseTrackOption 3 [defaultTrackOpt, defaultTrackOpt, defaultTrackOpt]
        "2::x=1".data = Except.error ParseErr.multipleColons
    ∧ ∀ (n : ℕ) (ss : List (List Char)) (opts : List TrackOpt) (s : List Char)
        (e : ParseErr), s ∈ ss → parseTrackOption n opts s = Except.error e →
        ∃ e2, parseTrackOptions n opts ss = Except.error e2 := by
  refine ⟨fun d1 d2 d3 => rfl, rfl, rfl, rfl, ?_⟩
  intro n ss opts s e hmem herr
  exact parseTrackOptions_abort n ss opts s e hmem herr

/-- Closed instance of C8's abort clause: a list whose second raw option
has two colons makes the whole parse fail. -/
theorem claim_C8_witness :
    ∃ e2, parseTrackOptions 3 [defaultTrackOpt, defaultTrackOpt, defaultTrackOpt]
      ["2:alternate-group=1".data, "2::x=1".data] = Except.error e2 :=
  claim_C8.2.2.2.2 3 ["2:alternate-group=1".data, "2::x=1".data]
    [defaultTrackOpt, defaultTrackOpt, defaultTrackOpt] "2::x=1".data
    ParseErr.multipleColons
    (List.mem_cons_of_mem _ (List.mem_cons_self _ _)) rfl

/-- The claim's reading of C10, taken literally: an option token
containing the key anywhere is always accepted. Refuted below: a token
with a second equal sign is rejected first. -/
theorem claim_C10_counterexample :
    hasSub altKey "x=alternate-group=2".data = true
    ∧ parseTrackOption 3 [defaultTrackOpt, defaultTrackOpt, defaultTrackOpt]
        "2:x=alternate-group=2".data = Except.error ParseErr.multipleEquals :=
  ⟨rfl, rfl⟩

/-- C10 (amended): option-key recognition is by substring containment,
not exact prefix match, provided the token passes the preceding
single-equal-sign check: a token with exactly one '=' containing
"alternate-group=" anywhere is accepted and sets the addressed track's
alternate group to the int16_t cast of atoi on the text after its first
'='; a token with exactly one '=' containing "language=" (and not
"alternate-group=", which is tested first) is accepted as a language
option; neither is reported as an unknown option. -/
theorem claim_C10 :
    ∀ (t : List Char) (tn : ℕ) (opts : List TrackOpt) (ts : List (List Char)),
      t.count '=' = 1 →
      (hasSub altKey t = true →
        applyTokens tn opts (t :: ts)
          = applyTokens tn (setAlt (wrap16 (atoi (afterEq t))) (tn - 1) opts) ts)
      ∧ (hasSub altKey t = false → hasSub langKey t = true →
        applyTokens tn opts (t :: ts)
          = applyTokens tn (setLang (packIsoLanguage (afterEq t)) (tn - 1) opts) ts) := by
  intro t tn opts ts h1
  constructor
  · intro h2
    simp only [applyTokens]
    rw [if_neg (by omega), if_pos h2]
  · intro h2 h3
    simp only [applyTokens]
    rw [if_neg (by omega), if_neg (by simp [h2]), if_pos h3]

/-- Closed instance of C10: a token whose key occurrence is preceded by
other characters is accepted and sets the alternate group. -/
theorem claim_C10_witness :
    applyTokens 1 [defaultTrackOpt] ["xxalternate-group=7".data]
      = Except.ok [{ defaultTrackOpt with alternate_group := 7 }] := by
  rw [(claim_C10 "xxalternate-group=7".data 1 [defaultTrackOpt] [] rfl).1 rfl]
  rfl

/- ===== Command-line handling (remuxer.c lines 279-377) ===== -/

/-- strcasecmp equality: characters compared after lowering case. -/
def eqCaseI : List Char → List Char → Bool
  | [], [] => true
  | a :: as, b :: bs => (a.toLower = b.toLower) && eqCaseI as bs
  | _, _ => false

def isInputFlag (a : List Char) : Bool :=
  eqCaseI a "-i".data || eqCaseI a "--input".data

def isOutputFlag (a : List Char) : Bool :=
  eqCaseI a "-o".data || eqCaseI a "--output".data

/-- Errors raised inside parse_cli_option (remuxer.c lines 279-340). -/
inductive CliErr where
  | inputNeedsArg
  | outputNeedsArg
  | unknownOption
  | tooManyTrackOptions
  | trackParse (e : ParseErr)
  deriving DecidableEq

/-- The argument loop of parse_cli_option (remuxer.c lines 285-315): each
-i or --input consumes the following argument as an input movie, each
-o or --output consumes the following argument and (re)opens the output
movie — a repeated -o simply overwrites the output root — and anything
else is an unknown option. The accumulator collects the raw input
arguments in order; the Boolean records whether an output was opened
(the external open is modelled as succeeding). -/
def parseCliArgs : List (List Char) → List (List Char) → Bool →
    Except CliErr (List (List Char) × Bool)
  | [], ins, outp => .ok (ins.reverse, outp)
  | [a], _, _ =>
    if isInputFlag a then .error .inputNeedsArg
    else if isOutputFlag a then .error .outputNeedsArg
    else .error .unknownOption
  | a :: v :: rest2, ins, outp =>
    if isInputFlag a then parseCliArgs rest2 (v :: ins) outp
    else if isOutputFlag a then parseCliArgs rest2 ins true
    else .error .unknownOption

/-- The track-option phase of parse_cli_option (remuxer.c lines 317-338):
per input argument, the part before the first '?' names the file (whose
track count the environment function supplies, abstracting get_movie),
the '?'-delimiter count may not exceed the track count, and the remaining
'?'-tokens are the raw per-track option strings handed to
parse_track_option. -/
def checkTrackOptions (env : List Char → ℕ) : List (List Char) → Except CliErr Unit
  | [] => .ok ()
  | arg :: rest =>
    if env ((strtokAll '?' arg).headD []) < arg.count '?' then
      .error .tooManyTrackOptions
    else
      match parseTrackOptions (env ((strtokAll '?' arg).headD []))
          (List.replicate (env ((strtokAll '?' arg).headD [])) defaultTrackOpt)
          ((strtokAll '?' arg).drop 1) with
      | .error e => .error (.trackParse e)
      | .ok _ => checkTrackOptions env rest

/-- The outcome stages of main before muxing (remuxer.c lines 354-377):
help/usage exit, the no-input error, a command-line parse error, the
unopened-output error, or reaching the muxing stage. -/
inductive MainStage where
  | helpExit
  | errNoInput
  | errCli
  | errNoOutput
  | scheduled
  deriving DecidableEq

/-- The count of -i or --input occurrences over all argument positions
(remuxer.c lines 361-364). -/
def countInputs (argv : List (List Char)) : ℕ :=
  (argv.drop 1).countP fun a => isInputFlag a

/-- The count of -o or --output occurrences over all argument positions. -/
def countOutputs (argv : List (List Char)) : ℕ :=
  (argv.drop 1).countP fun a => isOutputFlag a

/-- main's pre-muxing pipeline (remuxer.c lines 354-377): the argc/help
gate, the input count and no-input error, parse_cli_option (argument
loop then track options), and the output-root check; `scheduled` means
the run proceeds to the muxing loop. The environment function gives each
input file's track count, abstracting the external movie reader. -/
def runMain (env : List Char → ℕ) (argv : List (List Char)) : MainStage :=
  if argv.length < 5 ∨ eqCaseI (argv.getD 1 []) "-h".data = true
      ∨ eqCaseI (argv.getD 1 []) "--help".data = true then .helpExit
  else if countInputs argv = 0 then .errNoInput
  else
    match parseCliArgs (argv.drop 1) [] false with
    | .error _ => .errCli
    | .ok (ins, outp) =>
      match checkTrackOptions env ins with
      | .error _ => .errCli
      | .ok _ => if outp = false then .errNoOutput else .scheduled

/-- If the argument loop completes with the output flag set, either it
was set initially or some -o or --output occurs among the arguments. -/
theorem parseCliArgs_output :
    ∀ (N : ℕ) (args : List (List Char)), args.length ≤ N →
      ∀ (acc ins : List (List Char)) (b outp : Bool),
        parseCliArgs args acc b = .ok (ins, outp) → outp = true →
        b = true ∨ 1 ≤ args.countP fun a => isOutputFlag a := by
  intro N
  induction N with
  | zero =>
    intro args hlen acc ins b outp hp ho
    have hargs : args = [] := List.length_eq_zero.mp (Nat.le_zero.mp hlen)
    subst hargs
    simp only [parseCliArgs] at hp
    have hpair := Except.ok.inj hp
    have hb : b = outp := congrArg Prod.snd hpair
    exact Or.inl (hb.trans ho)
  | succ N ih =>
    intro args hlen acc ins b outp hp ho
    cases args with
    | nil =>
      simp only [parseCliArgs] at hp
      have hpair := Except.ok.inj hp
      have hb : b = outp := congrArg Prod.snd hpair
      exact Or.inl (hb.trans ho)
    | cons a rest =>
      cases rest with
      | nil =>
        simp only [parseCliArgs] at hp
        by_cases hin : isInputFlag a = true
        · rw [if_pos hin] at hp; simp at hp
        · rw [if_neg hin] at hp
          by_cases hout : isOutputFlag a = true
          · rw [if_pos hout] at hp; simp at hp
          · rw [if_neg hout] at hp; simp at hp
      | cons v rest2 =>
        simp only [parseCliArgs] at hp
        by_cases hin : isInputFlag a = true
        · rw [if_pos hin] at hp
          have hlen2 : rest2.length ≤ N := by
            simp only [List.length_cons] at hlen
            omega
          rcases ih rest2 hlen2 (v :: acc) ins b outp hp ho with hb | hc
          · exact Or.inl hb
          · right
            have hsub : List.Sublist rest2 (a :: v :: rest2) :=
              ((List.sublist_cons_self v rest2).trans
                (List.sublist_cons_self a (v :: rest2)))
            exact le_trans hc (List.Sublist.countP_le _ hsub)
        · rw [if_neg hin] at hp
          by_cases hout : isOutputFlag a = true
          · right
            rw [List.countP_cons]
            simp [hout]
          · rw [if_neg hout] at hp
            simp at hp

/-- The claim's reading of C9, taken literally: more than one output
fails before scheduling. Refuted: an invocation with two -o options
reaches the muxing stage — each -o merely overwrites the output root. -/
theorem claim_C9_counterexample :
    runMain (fun t => 1) ["remuxer".data, "-i".data, "in".data, "-o".data,
      "out1".data, "-o".data, "out2".data] = MainStage.scheduled
    ∧ countOutputs ["remuxer".data, "-i".data, "in".data, "-o".data,
        "out1".data, "-o".data, "out2".data] = 2 :=
  ⟨rfl, rfl⟩

/-- C9 (amended): reaching the muxing stage requires at least one input
option and at least one output option on the command line; the
exactly-one-output part of the claim is not enforced (a repeated -o
overwrites the previous output root and the run proceeds). -/
theorem claim_C9 :
    ∀ (env : List Char → ℕ) (argv : List (List Char)),
      runMain env argv = MainStage.scheduled →
      1 ≤ countInputs argv ∧ 1 ≤ countOutputs argv := by
  intro env argv h
  unfold runMain at h
  split at h
  · simp at h
  · split at h
    · simp at h
    · rename_i hni
      split at h
      · simp at h
      · rename_i ins outp hpc
        split at h
        · simp at h
        · split at h
          · simp at h
          · rename_i houtp
            constructor
            · omega
            · have hres := parseCliArgs_output (argv.drop 1).length (argv.drop 1)
                (le_refl _) [] ins false outp hpc
                (by cases outp with
                  | false => exact absurd rfl houtp
                  | true => rfl)
              rcases hres with hb | hc
              · simp at hb
              · exact hc

/-- Closed instance of C9: a minimal well-formed invocation reaches the
muxing stage and indeed carries one input and one output option. -/
theorem claim_C9_witness :
    1 ≤ countInputs ["remuxer".data, "-i".data, "in".data, "-o".data, "out".data]
    ∧ 1 ≤ countOutputs ["remuxer".data, "-i".data, "in".data, "-o".data, "out".data] :=
  claim_C9 (fun t => 1)
    ["remuxer".data, "-i".data, "in".data, "-o".data, "out".data] rfl

end Remuxer
